import Mathlib

/-!
# Interval scheduling with payoffs: the program of payoff_sched.cpp

A shallow embedding of `src/payoff_sched.cpp` and the properties of its
weighted-interval-scheduling algorithm.

Conventions of the embedding.

* C++ `int` is `Int`.  The definitions without a suffix add payoffs exactly,
  over unbounded integers; the definitions ending in `32` repeat the table
  filling and the reconstruction with every payoff sum wrapped to 32 bits, as
  the compiled program computes it.  The two agree whenever no sum leaves the
  range of `int`.
* An array `Interval arr[]` holding `n` records is a `List Interval`; positions
  are `Int`, as in the source, and `arrAt` reads one.
* `int *table = new int[n]` is a function `Int → Int` from positions to values:
  the source reads `table[-1]`, one position before the allocation, so the
  model needs a value there.  That value is not determined by the program; it
  is the parameter `junk`, the memory contents at and around the fresh
  allocation before anything is written.
* `while` loops are bounded by a fuel argument and return `none` when the fuel
  runs out while the loop condition still holds; the theorems show that the
  fuel the callers pass always suffices.
* `std::sort` is library code.  Its contract is `SortResult`: the array after
  the call is a permutation of the array before, and no later element compares
  less than an earlier one.  Theorems quantify over every such outcome.
-/

namespace PayoffSched

/-- An interval has start time, finish time and payoff (`struct Interval`). -/
structure Interval where
  start : Int
  finish : Int
  payoff : Int
deriving DecidableEq, Inhabited

/-- The comparator handed to `std::sort`: `s1.finish < s2.finish`. -/
def IntervalComparator (s1 s2 : Interval) : Bool :=
  decide (s1.finish < s2.finish)

/-- The array after `std::sort(arr, arr+n, IntervalComparator)`: no later
element compares less than an earlier one. -/
abbrev IsSorted (arr : List Interval) : Prop :=
  arr.Pairwise (fun a b => IntervalComparator b a = false)

/-- Contract of `std::sort(arr, arr+n, IntervalComparator)`: `sorted` is a
rearrangement of `input` that is ordered with respect to the comparator. -/
abbrev SortResult (input sorted : List Interval) : Prop :=
  sorted.Perm input ∧ IsSorted sorted

/-- The read `arr[i]`.  Positions outside `0..n-1` yield the default record;
the only such read in the program is `arr[0]` when `n = 0`. -/
def arrAt (arr : List Interval) (i : Int) : Interval :=
  if i < 0 then default else arr.getD i.toNat default

/-- The `while (lo <= hi)` loop of `binarySearch`, with the loop variables
`lo` and `hi` as arguments.  `none` means the fuel ran out. -/
def binarySearchLoop (Intervals : List Interval) (index : Int) : Nat → Int → Int → Option Int
  | 0, lo, hi => if lo ≤ hi then none else some (-1)
  | fuel + 1, lo, hi =>
    if lo ≤ hi then
      let mid := (lo + hi).tdiv 2
      if (arrAt Intervals mid).finish ≤ (arrAt Intervals index).start then
        if (arrAt Intervals (mid + 1)).finish ≤ (arrAt Intervals index).start then
          binarySearchLoop Intervals index fuel (mid + 1) hi
        else
          some mid
      else
        binarySearchLoop Intervals index fuel lo (mid - 1)
    else
      some (-1)

/-- The function `int binarySearch(Interval Intervals[], int index)`: starts the
loop at `lo = 0`, `hi = index - 1`.  The interval `lo..hi` shrinks in every
iteration, so `index` iterations are enough fuel. -/
def binarySearch (Intervals : List Interval) (index : Int) : Option Int :=
  binarySearchLoop Intervals index index.toNat 0 (index - 1)

/-- The write `table[i] = v`. -/
def tableSet (table : Int → Int) (i v : Int) : Int → Int :=
  fun k => if k = i then v else table k

/-- Body of the loop `for (int i=1; i<n; i++)` of `findMaxpayoff`. -/
def fillStep (arr : List Interval) (table : Int → Int) (i : Int) : Option (Int → Int) :=
  match binarySearch arr i with
  | none => none
  | some pjl =>
    let inclPay := (arrAt arr i).payoff
    let inclPay := if pjl ≠ -1 then inclPay + table pjl else inclPay
    some (tableSet table i (max inclPay (table (i - 1))))

/-- The loop `for (int i=1; i<n; i++)`: the first argument counts the
iterations that remain, the second is `i`. -/
def fillLoop (arr : List Interval) : Nat → Int → (Int → Int) → Option (Int → Int)
  | 0, _, table => some table
  | k + 1, i, table =>
    match fillStep arr table i with
    | none => none
    | some t => fillLoop arr k (i + 1) t

/-- The table of `findMaxpayoff` once filled: `new int[n]` (contents `junk`),
`table[0] = arr[0].payoff`, then the loop over `i = 1 .. n-1`. -/
def buildTable (junk : Int → Int) (arr : List Interval) : Option (Int → Int) :=
  fillLoop arr ((arr.length : Int) - 1).toNat 1 (tableSet junk 0 (arrAt arr 0).payoff)

/-- The loop `while(j>=0)` of `findMaxpayoff`.  `resultsIndex` is the part
`resultsIndex[0..resultNum]` of the array of that name, in the order the
indices were recorded.  `none` means the fuel ran out. -/
def backtrackLoop (arr : List Interval) (table : Int → Int) :
    Nat → Int → List Int → Option (List Int)
  | 0, j, resultsIndex => if 0 ≤ j then none else some resultsIndex
  | fuel + 1, j, resultsIndex =>
    if 0 ≤ j then
      match binarySearch arr j with
      | none => none
      | some pj =>
        if (arrAt arr j).payoff + table pj ≥ table (j - 1) then
          backtrackLoop arr table fuel pj (resultsIndex ++ [j])
        else
          backtrackLoop arr table fuel (j - 1) resultsIndex
    else
      some resultsIndex

/-- What one run of `findMaxpayoff` produces: the number printed after
`Max Payoff: `, the recorded indices `resultsIndex[0..resultNum]`, and the
interval lines printed by the last loop. -/
structure Output where
  maxPayoff : Int
  resultsIndex : List Int
  printed : List Interval
deriving DecidableEq

/-- The function `findMaxpayoff` from the line after the call of `sort`; `arr`
is the array as the sort left it and `n` its length.  The last loop prints
`arr[resultsIndex[resultNum]]` for `resultNum` counting down to `0`, that is,
the recorded indices in reverse. -/
def findMaxpayoffSorted (junk : Int → Int) (arr : List Interval) : Option Output :=
  let n : Int := arr.length
  match buildTable junk arr with
  | none => none
  | some table =>
    match backtrackLoop arr table arr.length (n - 1) [] with
    | none => none
    | some resultsIndex =>
      some ⟨table (n - 1), resultsIndex, resultsIndex.reverse.map (arrAt arr)⟩

/-- Total payoff of a selection of intervals. -/
def payoffSum (sel : List Interval) : Int :=
  (sel.map Interval.payoff).sum

/-- Two intervals do not overlap when one finishes no later than the other
starts. -/
abbrev NonOverlapping (a b : Interval) : Prop :=
  a.finish ≤ b.start ∨ b.finish ≤ a.start

/-- A selection is compatible when its intervals are pairwise non-overlapping. -/
abbrev Compatible (sel : List Interval) : Prop :=
  sel.Pairwise NonOverlapping

/-! ## The loops once more, with the positions they touch

The claims about which positions are read need the loops to say what they
read.  The definitions below repeat `binarySearchLoop` and `backtrackLoop`
statement by statement and, next to the result, collect the positions of the
array reads (`arr[mid]`, `arr[index]`, `arr[mid + 1]`) and of the table reads
(`table[pj]`, `table[j-1]`).  Theorems further down show that the results are
those of the plain loops. -/

/-- The loop of `binarySearch` together with the positions of `Intervals` it
reads, in order: each evaluated comparison reads its left position and
`index`. -/
def binarySearchReadsLoop (Intervals : List Interval) (index : Int) :
    Nat → Int → Int → List Int → Option (Int × List Int)
  | 0, lo, hi, reads => if lo ≤ hi then none else some (-1, reads)
  | fuel + 1, lo, hi, reads =>
    if lo ≤ hi then
      let mid := (lo + hi).tdiv 2
      if (arrAt Intervals mid).finish ≤ (arrAt Intervals index).start then
        if (arrAt Intervals (mid + 1)).finish ≤ (arrAt Intervals index).start then
          binarySearchReadsLoop Intervals index fuel (mid + 1) hi
            (reads ++ [mid, index, mid + 1, index])
        else
          some (mid, reads ++ [mid, index, mid + 1, index])
      else
        binarySearchReadsLoop Intervals index fuel lo (mid - 1) (reads ++ [mid, index])
    else
      some (-1, reads)

/-- The function `binarySearch` together with the positions it reads. -/
def binarySearchReads (Intervals : List Interval) (index : Int) : Option (Int × List Int) :=
  binarySearchReadsLoop Intervals index index.toNat 0 (index - 1) []

/-- What the loop `while(j>=0)` has done so far: the recorded indices
`resultsIndex[0..resultNum]`, the value of `j` at the start of each iteration,
and the table positions read by the condition
`arr[j].payoff+table[pj]>=table[j-1]`. -/
structure BacktrackTrace where
  resultsIndex : List Int
  visited : List Int
  reads : List Int
deriving DecidableEq

/-- The loop `while(j>=0)` of `findMaxpayoff` together with its trace. -/
def backtrackTrace (arr : List Interval) (table : Int → Int) :
    Nat → Int → BacktrackTrace → Option BacktrackTrace
  | 0, j, tr => if 0 ≤ j then none else some tr
  | fuel + 1, j, tr =>
    if 0 ≤ j then
      match binarySearch arr j with
      | none => none
      | some pj =>
        if (arrAt arr j).payoff + table pj ≥ table (j - 1) then
          backtrackTrace arr table fuel pj
            ⟨tr.resultsIndex ++ [j], tr.visited ++ [j], tr.reads ++ [pj, j - 1]⟩
        else
          backtrackTrace arr table fuel (j - 1)
            ⟨tr.resultsIndex, tr.visited ++ [j], tr.reads ++ [pj, j - 1]⟩
    else
      some tr

/-! ## The recursive reconstruction -/

/-- A line written to `cout` by `BacktrackForSolution`: an interval line from
`printinterval`, or the line `was here 1`. -/
inductive Line where
  | interval (i : Interval)
  | wasHere1
deriving DecidableEq

/-- The state `BacktrackForSolution` works on: the array `resultsIndex`
(positions to values), the counter `n` passed by reference, and the lines
written to `cout`. -/
structure RecState where
  resultsIndex : Int → Int
  n : Int
  cout : List Line

/-- The function `BacktrackForSolution(arr, resultsIndex, table, j, n)`.  The
first argument bounds the depth of the recursion; `none` means it was
exhausted while `j >= 0`. -/
def BacktrackForSolution (arr : List Interval) (table : Int → Int) :
    Nat → Int → RecState → Option RecState
  | 0, j, s => if j ≥ 0 then none else some s
  | fuel + 1, j, s =>
    if j ≥ 0 then
      match binarySearch arr j with
      | none => none
      | some pj =>
        if (arrAt arr j).payoff + table pj ≥ table (j - 1) then
          BacktrackForSolution arr table fuel pj
            ⟨tableSet s.resultsIndex (s.n + 1) j, s.n + 1,
              s.cout ++ [Line.interval (arrAt arr j), Line.wasHere1]⟩
        else
          BacktrackForSolution arr table fuel (j - 1) s
    else
      some s

/-! ## The same with 32-bit sums

The source adds payoffs in `int`.  The definitions below repeat the table
filling and the reconstruction with every such sum wrapped to 32 bits in
two's complement, which is what the compiled program computes when a sum
leaves the range of `int`. -/

/-- The value an `int` holds after a sum whose exact value is `x`: `x` reduced
to the range -2147483648 .. 2147483647. -/
def wrapInt (x : Int) : Int :=
  (x + 2147483648) % 4294967296 - 2147483648

/-- Body of the loop `for (int i=1; i<n; i++)` with `inclPay += table[pjl]`
computed in `int`. -/
def fillStep32 (arr : List Interval) (table : Int → Int) (i : Int) : Option (Int → Int) :=
  match binarySearch arr i with
  | none => none
  | some pjl =>
    let inclPay := (arrAt arr i).payoff
    let inclPay := if pjl ≠ -1 then wrapInt (inclPay + table pjl) else inclPay
    some (tableSet table i (max inclPay (table (i - 1))))

/-- The loop `for (int i=1; i<n; i++)` with 32-bit sums. -/
def fillLoop32 (arr : List Interval) : Nat → Int → (Int → Int) → Option (Int → Int)
  | 0, _, table => some table
  | k + 1, i, table =>
    match fillStep32 arr table i with
    | none => none
    | some t => fillLoop32 arr k (i + 1) t

/-- The table of `findMaxpayoff` once filled, with 32-bit sums. -/
def buildTable32 (junk : Int → Int) (arr : List Interval) : Option (Int → Int) :=
  fillLoop32 arr ((arr.length : Int) - 1).toNat 1 (tableSet junk 0 (arrAt arr 0).payoff)

/-- What the search is specified to return at `index`: `-1` when no position
below `index` finishes by the start of `arr[index]`, else the last such position. -/
def IsPredecessor (arr : List Interval) (index r : Int) : Prop :=
  (r = -1 ∧ ∀ k, 0 ≤ k → k < index → ¬ (arrAt arr k).finish ≤ (arrAt arr index).start) ∨
  (0 ≤ r ∧ r < index ∧ (arrAt arr r).finish ≤ (arrAt arr index).start ∧
    ∀ k, r < k → k < index → ¬ (arrAt arr k).finish ≤ (arrAt arr index).start)

/-- The recurrence that the filled part `0..m` of the table obeys, and the
fact that every other position still holds what the memory held. -/
def TableOK (arr : List Interval) (junk table : Int → Int) (m : Int) : Prop :=
  table 0 = (arrAt arr 0).payoff ∧
  (∀ k, 1 ≤ k → k ≤ m → ∃ p, binarySearch arr k = some p ∧
    table k = max ((arrAt arr k).payoff + (if p ≠ -1 then table p else 0)) (table (k - 1))) ∧
  (∀ k, (k < 0 ∨ m < k) → table k = junk k)

/-- A selection listed in time order: each interval finishes by the time every
later one starts. -/
def Chain (c : List Interval) : Prop :=
  c.Pairwise (fun a b => a.finish ≤ b.start)

/-- No interval of `arr` finishes by the time `a` starts. -/
def Rootless (arr : List Interval) (a : Interval) : Prop :=
  ∀ x ∈ arr, ¬ x.finish ≤ a.start

/-- The selections a table entry ranges over.  With `mode` the selection must
contain an interval that no interval of the array precedes; without it every
selection counts. -/
def Adm (mode : Prop) (arr c : List Interval) : Prop :=
  mode → ∃ a ∈ c, Rootless arr a

/-! ## Reading the array -/

theorem arrAt_natCast (arr : List Interval) (k : Nat) (h : k < arr.length) :
    arrAt arr (k : Int) = arr[k] := by
  simp [arrAt, List.getD_eq_getElem, h]

theorem finish_le_of_sorted {arr : List Interval} (hs : IsSorted arr) {a b : Int}
    (ha : 0 ≤ a) (hab : a ≤ b) (hb : b < arr.length) :
    (arrAt arr a).finish ≤ (arrAt arr b).finish := by
  obtain ⟨x, rfl⟩ := Int.eq_ofNat_of_zero_le ha
  obtain ⟨y, rfl⟩ := Int.eq_ofNat_of_zero_le (le_trans ha hab)
  have hy : y < arr.length := by exact_mod_cast hb
  have hxy : x ≤ y := by exact_mod_cast hab
  rw [arrAt_natCast arr x (lt_of_le_of_lt hxy hy), arrAt_natCast arr y hy]
  rcases Nat.eq_or_lt_of_le hxy with h | h
  · subst h; exact le_refl _
  · have := List.pairwise_iff_getElem.mp hs x y (lt_of_le_of_lt hxy hy) hy h
    simpa [IntervalComparator] using this

/-! ## The predecessor search -/

theorem mid_eq {lo hi : Int} (h0 : 0 ≤ lo) (h : lo ≤ hi) : (lo + hi).tdiv 2 = (lo + hi) / 2 :=
  Int.tdiv_eq_ediv (by omega) (by omega)

theorem binarySearchLoop_total (arr : List Interval) (index : Int) :
    ∀ (fuel : Nat) (lo hi : Int), 0 ≤ lo → hi - lo + 1 ≤ fuel →
      ∃ r, binarySearchLoop arr index fuel lo hi = some r := by
  intro fuel
  induction fuel with
  | zero =>
    intro lo hi _ hf
    have : ¬ lo ≤ hi := by omega
    exact ⟨-1, by simp [binarySearchLoop, this]⟩
  | succ fuel ih =>
    intro lo hi h0 hf
    unfold binarySearchLoop
    by_cases hle : lo ≤ hi
    · have hm := mid_eq h0 hle
      simp only [hle, if_true, hm]
      split
      · split
        · exact ih _ _ (by omega) (by push_cast at hf; omega)
        · exact ⟨_, rfl⟩
      · exact ih _ _ h0 (by push_cast at hf; omega)
    · exact ⟨-1, by simp [hle]⟩

theorem binarySearchLoop_sound (arr : List Interval) (index : Int) :
    ∀ (fuel : Nat) (lo hi r : Int), 0 ≤ lo →
      binarySearchLoop arr index fuel lo hi = some r →
      r = -1 ∨ (lo ≤ r ∧ r ≤ hi ∧ (arrAt arr r).finish ≤ (arrAt arr index).start) := by
  intro fuel
  induction fuel with
  | zero =>
    intro lo hi r _ h
    unfold binarySearchLoop at h
    split at h
    · simp at h
    · left; simpa using h.symm
  | succ fuel ih =>
    intro lo hi r h0 h
    unfold binarySearchLoop at h
    by_cases hle : lo ≤ hi
    · have hm := mid_eq h0 hle
      simp only [hle, if_true, hm] at h
      split at h
      · rename_i hfin
        split at h
        · rcases ih _ _ _ (by omega) h with h1 | ⟨h1, h2, h3⟩
          · exact Or.inl h1
          · exact Or.inr ⟨by omega, h2, h3⟩
        · have hr : r = (lo + hi) / 2 := by simpa using h.symm
          subst hr
          exact Or.inr ⟨by omega, by omega, hfin⟩
      · rcases ih _ _ _ h0 h with h1 | ⟨h1, h2, h3⟩
        · exact Or.inl h1
        · exact Or.inr ⟨h1, by omega, h3⟩
    · simp only [hle, if_false] at h
      left; simpa using h.symm

theorem binarySearchLoop_complete (arr : List Interval) (index : Int)
    (hsort : ∀ a b : Int, 0 ≤ a → a ≤ b → b ≤ index →
      (arrAt arr a).finish ≤ (arrAt arr b).finish) :
    ∀ (fuel : Nat) (lo hi r : Int), 0 ≤ lo → lo ≤ index → hi < index →
      (lo = 0 ∨ (arrAt arr lo).finish ≤ (arrAt arr index).start) →
      (∀ k, hi < k → k ≤ index → (arrAt arr index).start < (arrAt arr k).finish) →
      binarySearchLoop arr index fuel lo hi = some r →
      IsPredecessor arr index r := by
  have hexit : ∀ lo hi : Int, 0 ≤ lo → lo ≤ index → ¬ lo ≤ hi →
      (lo = 0 ∨ (arrAt arr lo).finish ≤ (arrAt arr index).start) →
      (∀ k, hi < k → k ≤ index → (arrAt arr index).start < (arrAt arr k).finish) →
      IsPredecessor arr index (-1) := by
    intro lo hi h0 hli hle hlo hhi
    refine Or.inl ⟨rfl, ?_⟩
    intro k hk0 hki
    rcases hlo with h | h
    · have := hhi k (by omega) (by omega)
      omega
    · have := hhi lo (by omega) hli
      omega
  intro fuel
  induction fuel with
  | zero =>
    intro lo hi r h0 hli hhi' hlo hhi h
    unfold binarySearchLoop at h
    split at h
    · simp at h
    · rename_i hle
      have hr : r = -1 := by simpa using h.symm
      subst hr
      exact hexit lo hi h0 hli hle hlo hhi
  | succ fuel ih =>
    intro lo hi r h0 hli hhi' hlo hhi h
    unfold binarySearchLoop at h
    by_cases hle : lo ≤ hi
    · have hm := mid_eq h0 hle
      simp only [hle, if_true, hm] at h
      split at h
      · rename_i hfin
        split at h
        · rename_i hfin1
          exact ih _ _ _ (by omega) (by omega) hhi' (Or.inr hfin1) hhi h
        · rename_i hfin1
          have hr : r = (lo + hi) / 2 := by simpa using h.symm
          subst hr
          refine Or.inr ⟨by omega, by omega, hfin, ?_⟩
          intro k hk1 hk2
          have := hsort ((lo + hi) / 2 + 1) k (by omega) (by omega) (by omega)
          omega
      · rename_i hfin
        refine ih _ _ _ h0 hli (by omega) hlo ?_ h
        intro k hk1 hk2
        have := hsort ((lo + hi) / 2) k (by omega) (by omega) hk2
        omega
    · simp only [hle, if_false] at h
      have hr : r = -1 := by simpa using h.symm
      subst hr
      exact hexit lo hi h0 hli hle hlo hhi

theorem binarySearch_total (arr : List Interval) (index : Int) :
    ∃ r, binarySearch arr index = some r := by
  unfold binarySearch
  apply binarySearchLoop_total arr index _ _ _ (le_refl _)
  have := Int.self_le_toNat index
  omega

theorem binarySearch_sound {arr : List Interval} {index r : Int}
    (h : binarySearch arr index = some r) :
    r = -1 ∨ (0 ≤ r ∧ r < index ∧ (arrAt arr r).finish ≤ (arrAt arr index).start) := by
  rcases binarySearchLoop_sound arr index _ _ _ _ (le_refl _) h with h1 | ⟨h1, h2, h3⟩
  · exact Or.inl h1
  · exact Or.inr ⟨h1, by omega, h3⟩

theorem binarySearch_complete {arr : List Interval} (hs : IsSorted arr) {index r : Int}
    (h0 : 0 ≤ index) (hn : index < arr.length)
    (hvalid : (arrAt arr index).start < (arrAt arr index).finish)
    (h : binarySearch arr index = some r) : IsPredecessor arr index r := by
  refine binarySearchLoop_complete arr index ?_ _ 0 (index - 1) r (le_refl _) h0
    (by omega) (Or.inl rfl) ?_ h
  · intro a b ha hab hb
    exact finish_le_of_sorted hs ha hab (by omega)
  · intro k hk1 hk2
    have : k = index := by omega
    subst this
    exact hvalid


/-! ## The table -/

theorem tableSet_same (t : Int → Int) (i v : Int) : tableSet t i v i = v := by
  simp [tableSet]

theorem tableSet_other (t : Int → Int) (i v : Int) {k : Int} (h : k ≠ i) :
    tableSet t i v k = t k := by
  simp [tableSet, h]

theorem fillStep_spec (arr : List Interval) (junk t : Int → Int) (i : Int) (hi : 1 ≤ i)
    (ht : TableOK arr junk t (i - 1)) :
    ∃ t1, fillStep arr t i = some t1 ∧ TableOK arr junk t1 i := by
  obtain ⟨p, hp⟩ := binarySearch_total arr i
  have hpi : p ≠ i := by
    rcases binarySearch_sound hp with h | ⟨_, h, _⟩ <;> omega
  refine ⟨_, by simp only [fillStep, hp]; rfl, ?_, ?_, ?_⟩
  · rw [tableSet_other _ _ _ (by omega)]
    exact ht.1
  · intro k hk1 hki
    by_cases hk : k = i
    · subst hk
      refine ⟨p, hp, ?_⟩
      rw [tableSet_same, tableSet_other _ _ _ hpi, tableSet_other _ _ _ (by omega)]
      by_cases hp1 : p = -1 <;> simp [hp1]
    · obtain ⟨q, hq, hrec⟩ := ht.2.1 k hk1 (by omega)
      have hqi : q ≠ i := by
        rcases binarySearch_sound hq with h | ⟨_, h, _⟩ <;> omega
      refine ⟨q, hq, ?_⟩
      rw [tableSet_other _ _ _ hk, tableSet_other _ _ _ hqi,
        tableSet_other _ _ _ (by omega)]
      exact hrec
  · intro k hk
    rw [tableSet_other _ _ _ (by omega)]
    exact ht.2.2 k (by omega)

theorem fillLoop_spec (arr : List Interval) (junk : Int → Int) :
    ∀ (cnt : Nat) (i : Int) (t : Int → Int), 1 ≤ i → TableOK arr junk t (i - 1) →
      ∃ t1, fillLoop arr cnt i t = some t1 ∧ TableOK arr junk t1 (i - 1 + cnt) := by
  intro cnt
  induction cnt with
  | zero =>
    intro i t _ ht
    exact ⟨t, rfl, by simpa using ht⟩
  | succ cnt ih =>
    intro i t hi ht
    obtain ⟨t1, h1, ht1⟩ := fillStep_spec arr junk t i hi ht
    obtain ⟨t2, h2, ht2⟩ := ih (i + 1) t1 (by omega) (by simpa using ht1)
    refine ⟨t2, by simp only [fillLoop, h1]; exact h2, ?_⟩
    have e : i + 1 - 1 + (cnt : Int) = i - 1 + ((cnt + 1 : Nat) : Int) := by
      push_cast; ring
    rw [← e]
    exact ht2

theorem buildTable_spec (junk : Int → Int) (arr : List Interval) (hne : arr ≠ []) :
    ∃ t, buildTable junk arr = some t ∧ TableOK arr junk t ((arr.length : Int) - 1) := by
  have hlen : 0 < arr.length := List.length_pos.mpr hne
  have h0 : TableOK arr junk (tableSet junk 0 (arrAt arr 0).payoff) (1 - 1) := by
    refine ⟨tableSet_same _ _ _, ?_, ?_⟩
    · intro k hk1 hk2; omega
    · intro k hk
      exact tableSet_other _ _ _ (by omega)
  obtain ⟨t, h1, h2⟩ := fillLoop_spec arr junk ((arr.length : Int) - 1).toNat 1 _ (le_refl _) h0
  refine ⟨t, h1, ?_⟩
  have e : (1 : Int) - 1 + ((((arr.length : Int) - 1).toNat : Nat) : Int) = (arr.length : Int) - 1 := by
    rw [Int.toNat_of_nonneg (by omega)]; ring
  rw [← e]
  exact h2

theorem table_mono {arr : List Interval} {junk t : Int → Int} {m : Int}
    (ht : TableOK arr junk t m) {k : Int} (hk1 : 1 ≤ k) (hkm : k ≤ m) : t (k - 1) ≤ t k := by
  obtain ⟨p, _, hrec⟩ := ht.2.1 k hk1 hkm
  rw [hrec]
  exact le_max_right _ _


/-! ## Selections as sublists -/

theorem sorted_getElem {arr : List Interval} (hs : IsSorted arr) {x y : Nat}
    (hxy : x ≤ y) (hy : y < arr.length) :
    (arr[x]).finish ≤ (arr[y]).finish := by
  rcases Nat.eq_or_lt_of_le hxy with h | h
  · subst h; exact le_refl _
  · have := List.pairwise_iff_getElem.mp hs x y (lt_of_le_of_lt hxy hy) hy h
    simpa [IntervalComparator] using this

theorem take_succ_getElem (l : List Interval) (k : Nat) (h : k < l.length) :
    l.take (k + 1) = l.take k ++ [l[k]] := by
  rw [List.take_succ, List.getElem?_eq_getElem h]
  rfl

theorem sublist_concat_cases {c l : List Interval} {a : Interval} (h : c.Sublist (l ++ [a])) :
    c.Sublist l ∨ ∃ c1, c = c1 ++ [a] ∧ c1.Sublist l := by
  obtain ⟨l1, l2, rfl, h1, h2⟩ := List.sublist_append_iff.mp h
  rcases List.sublist_singleton.mp h2 with rfl | rfl
  · left; simpa using h1
  · right; exact ⟨l1, rfl, h1⟩

theorem sublist_take_shrink (P : Interval → Prop) (l c : List Interval) (j : Nat)
    (hc : ∀ x ∈ c, P x) :
    ∀ i : Nat, (∀ k (hk : k < l.length), j ≤ k → k < i → ¬ P l[k]) →
      c.Sublist (l.take i) → c.Sublist (l.take j) := by
  intro i
  induction i with
  | zero =>
    intro _ h
    have : c = [] := by simpa using h
    subst this
    exact List.nil_sublist _
  | succ i ih =>
    intro hP h
    by_cases hij : i + 1 ≤ j
    · exact h.trans (List.take_sublist_take_left l hij)
    · have hP1 : ∀ k (hk : k < l.length), j ≤ k → k < i → ¬ P l[k] :=
        fun k hk h1 h2 => hP k hk h1 (by omega)
      by_cases hil : i < l.length
      · rw [take_succ_getElem l i hil] at h
        rcases sublist_concat_cases h with h1 | ⟨c1, rfl, _⟩
        · exact ih hP1 h1
        · exact absurd (hc _ (by simp)) (hP i hil (by omega) (by omega))
      · rw [List.take_of_length_le (by omega)] at h
        rw [← List.take_of_length_le (show l.length ≤ i by omega)] at h
        exact ih hP1 h

theorem payoffSum_append (a b : List Interval) :
    payoffSum (a ++ b) = payoffSum a + payoffSum b := by
  simp [payoffSum]

theorem rootless_of_no_pred {arr : List Interval} (hs : IsSorted arr)
    (hv : ∀ x ∈ arr, x.start < x.finish) (k : Nat) (hk : k < arr.length)
    (h : ∀ j (hj : j < k), ¬ (arr[j]).finish ≤ (arr[k]).start) :
    Rootless arr arr[k] := by
  intro x hx
  obtain ⟨j, hj, rfl⟩ := List.mem_iff_getElem.mp hx
  by_cases hjk : j < k
  · exact h j hjk
  · have h1 := sorted_getElem hs (show k ≤ j by omega) hj
    have h2 := hv _ (List.getElem_mem hk)
    omega

/-- Every table entry is the best total payoff of the admissible selections
among the first `i+1` sorted intervals. -/
theorem table_char (mode : Prop) {arr : List Interval} (hs : IsSorted arr)
    (hv : ∀ x ∈ arr, x.start < x.finish)
    (hpay : ¬ mode → ∀ x ∈ arr, 0 ≤ x.payoff)
    {junk t : Int → Int} {m : Int} (ht : TableOK arr junk t m) :
    ∀ i : Nat, i < arr.length → (i : Int) ≤ m →
      (∀ c, c.Sublist (arr.take (i + 1)) → Chain c → Adm mode arr c → payoffSum c ≤ t i) ∧
      (∃ c, c.Sublist (arr.take (i + 1)) ∧ Chain c ∧ Adm mode arr c ∧ payoffSum c = t i) := by
  intro i
  induction i using Nat.strong_induction_on with
  | _ i ih =>
  intro hi him
  cases i with
  | zero =>
    have h0 : t 0 = (arr[0]).payoff := by
      have := ht.1
      rwa [show (0 : Int) = ((0 : Nat) : Int) from rfl, arrAt_natCast arr 0 hi] at this
    have htake : arr.take (0 + 1) = [arr[0]] := by
      rw [take_succ_getElem arr 0 hi]; simp
    rw [htake]
    constructor
    · intro c hc _ hadm
      rcases List.sublist_singleton.mp hc with rfl | rfl
      · by_cases hm : mode
        · obtain ⟨a, ha, _⟩ := hadm hm
          simp at ha
        · have := hpay hm _ (List.getElem_mem hi)
          simpa [payoffSum, h0] using this
      · simp [payoffSum, h0]
    · refine ⟨[arr[0]], List.Sublist.refl _, List.pairwise_singleton _ _, ?_, by simp [payoffSum, h0]⟩
      intro _
      exact ⟨arr[0], by simp, rootless_of_no_pred hs hv 0 hi (fun j hj => by omega)⟩
  | succ i =>
    obtain ⟨p, hp, hrec⟩ := ht.2.1 ((i + 1 : Nat) : Int) (by push_cast; omega) him
    have hpred := binarySearch_complete hs (by positivity) (by exact_mod_cast hi)
      (by rw [arrAt_natCast arr (i + 1) hi]; exact hv _ (List.getElem_mem hi)) hp
    rw [arrAt_natCast arr (i + 1) hi] at hrec
    have hprev : ((i + 1 : Nat) : Int) - 1 = (i : Int) := by push_cast; ring
    rw [hprev] at hrec
    have hnopred : ∀ k (hk : k < arr.length), (p + 1).toNat ≤ k → k < i + 1 →
        ¬ (arr[k]).finish ≤ (arr[i + 1]).start := by
      intro k hk h1 h2
      have key : ∀ z : Int, p < z → z < ((i + 1 : Nat) : Int) →
          ¬ (arrAt arr z).finish ≤ (arrAt arr ((i + 1 : Nat) : Int)).start := by
        intro z hz1 hz2
        rcases hpred with ⟨hp1, h⟩ | ⟨_, _, _, h⟩
        · exact h z (by omega) hz2
        · exact h z hz1 hz2
      have := key (k : Int) (by omega) (by exact_mod_cast h2)
      rwa [arrAt_natCast arr k hk, arrAt_natCast arr (i + 1) hi] at this
    have hih := ih i (by omega) (by omega) (by push_cast at him; omega)
    have htake := take_succ_getElem arr (i + 1) hi
    constructor
    · intro c hc hchain hadm
      rw [htake] at hc
      rcases sublist_concat_cases hc with h1 | ⟨c1, rfl, h1⟩
      · have := hih.1 c h1 hchain hadm
        rw [hrec]
        exact le_trans this (le_max_right _ _)
      · have hch := List.pairwise_append.mp hchain
        have hfin : ∀ x ∈ c1, x.finish ≤ (arr[i + 1]).start :=
          fun x hx => hch.2.2 x hx _ (by simp)
        have hsub := sublist_take_shrink (fun x => x.finish ≤ (arr[i + 1]).start) arr c1
          (p + 1).toNat hfin (i + 1) hnopred h1
        rw [payoffSum_append, hrec]
        refine le_trans ?_ (le_max_left _ _)
        rcases hpred with ⟨hp1, _⟩ | ⟨hp0, hpk, hpfin, _⟩
        · subst hp1
          have : c1 = [] := by simpa using hsub
          subst this
          simp [payoffSum]
        · obtain ⟨q, rfl⟩ := Int.eq_ofNat_of_zero_le hp0
          have hq : q < i + 1 := by exact_mod_cast hpk
          have hsub1 : c1.Sublist (arr.take (q + 1)) := by
            have e : ((q : Int) + 1).toNat = q + 1 := by omega
            rwa [e] at hsub
          have hadm1 : Adm mode arr c1 := by
            intro hm
            obtain ⟨a, ha, hroot⟩ := hadm hm
            rcases List.mem_append.mp ha with ha1 | ha1
            · exact ⟨a, ha1, hroot⟩
            · have : a = arr[i + 1] := by simpa using ha1
              subst this
              rw [arrAt_natCast arr q (by omega), arrAt_natCast arr (i + 1) hi] at hpfin
              exact absurd hpfin (hroot _ (List.getElem_mem _))
          have := (ih q hq (by omega) (by omega)).1 c1 hsub1 hch.1 hadm1
          have hne : (q : Int) ≠ -1 := by omega
          simp only [hne, ne_eq, not_false_eq_true, if_true]
          simp only [payoffSum] at this ⊢
          simp only [List.map_cons, List.map_nil, List.sum_cons, List.sum_nil]
          omega
    · rw [htake, hrec]
      rcases le_total ((arr[i + 1]).payoff + (if p ≠ -1 then t p else 0)) (t (i : Int)) with hle | hle
      · obtain ⟨c, h1, h2, h3, h4⟩ := hih.2
        exact ⟨c, h1.trans (List.sublist_append_left _ _), h2, h3, by rw [max_eq_right hle]; exact h4⟩
      · rw [max_eq_left hle]
        rcases hpred with ⟨hp1, hno⟩ | ⟨hp0, hpk, hpfin, _⟩
        · subst hp1
          refine ⟨[arr[i + 1]], List.sublist_append_right _ _, List.pairwise_singleton _ _, ?_,
            by simp [payoffSum]⟩
          intro _
          refine ⟨_, by simp, rootless_of_no_pred hs hv (i + 1) hi ?_⟩
          intro j hj
          have := hno (j : Int) (by positivity) (by exact_mod_cast hj)
          rwa [arrAt_natCast arr j (by omega), arrAt_natCast arr (i + 1) hi] at this
        · obtain ⟨q, rfl⟩ := Int.eq_ofNat_of_zero_le hp0
          have hq : q < i + 1 := by exact_mod_cast hpk
          obtain ⟨c1, h1, h2, h3, h4⟩ := (ih q hq (by omega) (by omega)).2
          rw [arrAt_natCast arr q (by omega), arrAt_natCast arr (i + 1) hi] at hpfin
          have hne : (q : Int) ≠ -1 := by omega
          refine ⟨c1 ++ [arr[i + 1]], ?_, ?_, ?_, ?_⟩
          · exact List.Sublist.append (h1.trans (List.take_sublist_take_left arr (by omega)))
              (List.Sublist.refl _)
          · refine List.pairwise_append.mpr ⟨h2, List.pairwise_singleton _ _, ?_⟩
            intro x hx b hb
            have hb1 : b = arr[i + 1] := by simpa using hb
            subst hb1
            obtain ⟨j, hj, rfl⟩ := List.mem_take_iff_getElem.mp (h1.subset hx)
            have hjq : j ≤ q := by
              have := lt_of_lt_of_le hj (min_le_left _ _)
              omega
            have := sorted_getElem hs hjq (show q < arr.length by omega)
            omega
          · intro hm
            obtain ⟨a, ha, hroot⟩ := h3 hm
            exact ⟨a, List.mem_append_left _ ha, hroot⟩
          · rw [payoffSum_append, h4]
            simp [payoffSum, hne]
            ring


/-! ## The reconstruction loop -/

theorem backtrackLoop_spec (arr : List Interval) (t : Int → Int) :
    ∀ (fuel : Nat) (j : Int) (acc : List Int), j + 1 ≤ fuel →
      ∃ new, backtrackLoop arr t fuel j acc = some (acc ++ new) ∧
        (∀ a ∈ new, 0 ≤ a ∧ a ≤ j) ∧
        new.Pairwise (fun a b => ∃ p, binarySearch arr a = some p ∧ b ≤ p) := by
  intro fuel
  induction fuel with
  | zero =>
    intro j acc hf
    have : ¬ 0 ≤ j := by push_cast at hf; omega
    exact ⟨[], by simp [backtrackLoop, this], by simp, List.Pairwise.nil⟩
  | succ fuel ih =>
    intro j acc hf
    unfold backtrackLoop
    by_cases hj : 0 ≤ j
    · obtain ⟨p, hp⟩ := binarySearch_total arr j
      have hpj : p < j := by
        rcases binarySearch_sound hp with h | ⟨_, h, _⟩ <;> omega
      simp only [hj, if_true, hp]
      split
      · obtain ⟨new, h1, h2, h3⟩ := ih p (acc ++ [j]) (by push_cast at hf; omega)
        refine ⟨j :: new, by simpa using h1, ?_, ?_⟩
        · intro a ha
          rcases List.mem_cons.mp ha with rfl | ha
          · exact ⟨hj, le_refl _⟩
          · have := h2 a ha
            omega
        · exact List.Pairwise.cons (fun b hb => ⟨p, hp, (h2 b hb).2⟩) h3
      · obtain ⟨new, h1, h2, h3⟩ := ih (j - 1) acc (by push_cast at hf; omega)
        refine ⟨new, h1, ?_, h3⟩
        intro a ha
        have := h2 a ha
        omega
    · exact ⟨[], by simp [hj], by simp, List.Pairwise.nil⟩

/-- A run on a non-empty array produces an output: the table satisfies its
recurrence, the reported payoff is its last entry, and the recorded indices
lie in `0..n-1`, each one at most the search result of every index recorded
before it. -/
theorem findMaxpayoffSorted_run (junk : Int → Int) (arr : List Interval) (hne : arr ≠ []) :
    ∃ t new, TableOK arr junk t ((arr.length : Int) - 1) ∧
      findMaxpayoffSorted junk arr
        = some ⟨t ((arr.length : Int) - 1), new, new.reverse.map (arrAt arr)⟩ ∧
      (∀ a ∈ new, 0 ≤ a ∧ a < arr.length) ∧
      new.Pairwise (fun a b => ∃ p, binarySearch arr a = some p ∧ b ≤ p) := by
  obtain ⟨t, h1, h2⟩ := buildTable_spec junk arr hne
  obtain ⟨new, h3, h4, h5⟩ := backtrackLoop_spec arr t arr.length ((arr.length : Int) - 1) []
    (by omega)
  refine ⟨t, new, h2, ?_, ?_, h5⟩
  · simp only [findMaxpayoffSorted, h1, h3]
    simp
  · intro a ha
    have := h4 a ha
    omega

/-- Of two recorded indices the one recorded later is smaller and, in a sorted
array, its interval finishes by the time the other starts. -/
theorem recorded_pair {arr : List Interval} (hs : IsSorted arr) {a b p : Int}
    (ha : a < arr.length) (hb : 0 ≤ b) (hp : binarySearch arr a = some p) (hbp : b ≤ p) :
    b < a ∧ (arrAt arr b).finish ≤ (arrAt arr a).start := by
  rcases binarySearch_sound hp with h | ⟨_, h2, h3⟩
  · omega
  · exact ⟨by omega, le_trans (finish_le_of_sorted hs hb hbp (by omega)) h3⟩

theorem pairwise_mem_cases {R : Int → Int → Prop} {l : List Int} (h : l.Pairwise R) :
    ∀ a ∈ l, ∀ b ∈ l, a = b ∨ R a b ∨ R b a := by
  induction h with
  | nil => intro a ha; simp at ha
  | cons hhead _ ih =>
    intro a ha b hb
    rcases List.mem_cons.mp ha with ha1 | ha1
    · rcases List.mem_cons.mp hb with hb1 | hb1
      · exact Or.inl (ha1.trans hb1.symm)
      · exact Or.inr (Or.inl (ha1 ▸ hhead b hb1))
    · rcases List.mem_cons.mp hb with hb1 | hb1
      · exact Or.inr (Or.inr (hb1 ▸ hhead a ha1))
      · exact ih a ha1 b hb1

/-! ## Selections of the input and of the sorted array -/

theorem payoffSum_perm {a b : List Interval} (h : a.Perm b) : payoffSum a = payoffSum b :=
  (h.map Interval.payoff).sum_eq

theorem nonOverlapping_symm {a b : Interval} (h : NonOverlapping a b) : NonOverlapping b a :=
  Or.symm h

theorem compatible_perm {a b : List Interval} (h : a.Perm b) : Compatible a ↔ Compatible b :=
  h.pairwise_iff nonOverlapping_symm

theorem sublist_transfer {l1 l2 c : List Interval} (h : l1.Perm l2) (hc : c.Sublist l1) :
    ∃ c2 : List Interval, c2.Perm c ∧ c2.Sublist l2 :=
  hc.subperm.trans h.subperm

theorem chain_of_compatible {arr c : List Interval} (hs : IsSorted arr)
    (hv : ∀ x ∈ arr, x.start < x.finish) (hc : c.Sublist arr) (h : Compatible c) :
    Chain c := by
  have h1 := (List.Pairwise.sublist hc hs).and h
  refine List.Pairwise.imp_of_mem ?_ h1
  intro a b ha _ hab
  have hva := hv a (hc.subset ha)
  have hfin : a.finish ≤ b.finish := by simpa [IntervalComparator] using hab.1
  rcases hab.2 with h2 | h2
  · exact h2
  · omega

theorem compatible_of_chain {c : List Interval} (h : Chain c) : Compatible c :=
  List.Pairwise.imp (fun hab => Or.inl hab) h

/-- The last table entry is the best total payoff of the admissible
selections of the input. -/
theorem last_entry_char (mode : Prop) {input sorted : List Interval} (hne : input ≠ [])
    (hvalid : ∀ x ∈ input, x.start < x.finish)
    (hpay : ¬ mode → ∀ x ∈ input, 0 ≤ x.payoff)
    (hsort : SortResult input sorted) {junk t : Int → Int}
    (ht : TableOK sorted junk t ((sorted.length : Int) - 1)) :
    (∀ sel, sel.Sublist input → Compatible sel → Adm mode input sel →
        payoffSum sel ≤ t ((sorted.length : Int) - 1)) ∧
    (∃ sel, sel.Sublist input ∧ Compatible sel ∧ Adm mode input sel ∧
        payoffSum sel = t ((sorted.length : Int) - 1)) := by
  obtain ⟨hperm, hs⟩ := hsort
  have hlen : 0 < sorted.length := by
    rw [hperm.length_eq]; exact List.length_pos.mpr hne
  have hv : ∀ x ∈ sorted, x.start < x.finish := fun x hx => hvalid x (hperm.mem_iff.mp hx)
  have hp : ¬ mode → ∀ x ∈ sorted, 0 ≤ x.payoff :=
    fun hm x hx => hpay hm x (hperm.mem_iff.mp hx)
  have hroot : ∀ a, Rootless sorted a ↔ Rootless input a := by
    intro a
    constructor
    · intro h x hx; exact h x (hperm.mem_iff.mpr hx)
    · intro h x hx; exact h x (hperm.mem_iff.mp hx)
  have hchar := table_char mode hs hv hp ht (sorted.length - 1) (by omega)
    (by rw [Nat.cast_sub (by omega)]; simp)
  have hidx : ((sorted.length - 1 : Nat) : Int) = (sorted.length : Int) - 1 := by
    rw [Nat.cast_sub (by omega)]; simp
  rw [hidx, Nat.sub_add_cancel (by omega), List.take_length] at hchar
  constructor
  · intro sel hsel hcomp hadm
    obtain ⟨c2, hc2, hsub⟩ := sublist_transfer hperm.symm hsel
    have hcomp2 : Compatible c2 := (compatible_perm hc2).mpr hcomp
    have hadm2 : Adm mode sorted c2 := by
      intro hm
      obtain ⟨a, ha, hr⟩ := hadm hm
      exact ⟨a, hc2.mem_iff.mpr ha, (hroot a).mpr hr⟩
    rw [← payoffSum_perm hc2]
    exact hchar.1 c2 hsub (chain_of_compatible hs hv hsub hcomp2) hadm2
  · obtain ⟨c, hsub, hchain, hadm, hsum⟩ := hchar.2
    obtain ⟨c2, hc2, hsub2⟩ := sublist_transfer hperm hsub
    refine ⟨c2, hsub2, (compatible_perm hc2).mpr (compatible_of_chain hchain), ?_, ?_⟩
    · intro hm
      obtain ⟨a, ha, hr⟩ := hadm hm
      exact ⟨a, hc2.mem_iff.mpr ha, (hroot a).mp hr⟩
    · rw [payoffSum_perm hc2]; exact hsum


/-! ## Results -/

/-- Claim C1, counterexample.  Payoffs may be negative integers: on the valid input
(1,2,-5), (3,4,7), already in finish order, the program reports 2, while the
selection consisting of (3,4,7) alone is non-overlapping and pays 7. -/
theorem findMaxpayoff_not_optimal_with_negative_payoff :
    SortResult [⟨1, 2, -5⟩, ⟨3, 4, 7⟩] [⟨1, 2, -5⟩, ⟨3, 4, 7⟩] ∧
    (∀ x ∈ [(⟨1, 2, -5⟩ : Interval), ⟨3, 4, 7⟩], x.start < x.finish) ∧
    (findMaxpayoffSorted (fun _ => 0) [⟨1, 2, -5⟩, ⟨3, 4, 7⟩]).map Output.maxPayoff = some 2 ∧
    List.Sublist [(⟨3, 4, 7⟩ : Interval)] [⟨1, 2, -5⟩, ⟨3, 4, 7⟩] ∧
    Compatible [(⟨3, 4, 7⟩ : Interval)] ∧
    2 < payoffSum [(⟨3, 4, 7⟩ : Interval)] := by
  refine ⟨by decide, by decide, by decide, by decide, by decide, by decide⟩

/-- Claim C1 as amended.  For every non-empty list of intervals with start < finish and
payoff >= 0, and every outcome of the sort, the run produces an output whose
reported payoff is the total payoff of some pairwise non-overlapping selection
of the input and is at least the total payoff of every such selection. -/
theorem findMaxpayoff_optimal_of_nonneg (junk : Int → Int) (input sorted : List Interval)
    (hne : input ≠ []) (hvalid : ∀ x ∈ input, x.start < x.finish)
    (hpay : ∀ x ∈ input, 0 ≤ x.payoff) (hsort : SortResult input sorted) :
    ∃ out, findMaxpayoffSorted junk sorted = some out ∧
      (∃ sel, sel.Sublist input ∧ Compatible sel ∧ payoffSum sel = out.maxPayoff) ∧
      (∀ sel, sel.Sublist input → Compatible sel → payoffSum sel ≤ out.maxPayoff) := by
  have hne2 : sorted ≠ [] := by
    intro h
    apply hne
    have := hsort.1
    rw [h] at this
    exact List.nil_perm.mp this
  obtain ⟨t, new, ht, hrun, _, _⟩ := findMaxpayoffSorted_run junk sorted hne2
  have hchar := last_entry_char False hne hvalid (fun _ => hpay) hsort ht
  refine ⟨_, hrun, ?_, ?_⟩
  · obtain ⟨sel, h1, h2, _, h4⟩ := hchar.2
    exact ⟨sel, h1, h2, h4⟩
  · intro sel h1 h2
    exact hchar.1 sel h1 h2 (fun h => h.elim)

/-- Witness for claim C1 as amended: the intervals (4,6,5), (1,3,5), (2,5,6), sorted to
(1,3,5), (2,5,6), (4,6,5). -/
theorem findMaxpayoff_optimal_of_nonneg_witness :
    ([(⟨4, 6, 5⟩ : Interval), ⟨1, 3, 5⟩, ⟨2, 5, 6⟩] ≠ []) ∧
    (∀ x ∈ [(⟨4, 6, 5⟩ : Interval), ⟨1, 3, 5⟩, ⟨2, 5, 6⟩], x.start < x.finish) ∧
    (∀ x ∈ [(⟨4, 6, 5⟩ : Interval), ⟨1, 3, 5⟩, ⟨2, 5, 6⟩], 0 ≤ x.payoff) ∧
    SortResult [⟨4, 6, 5⟩, ⟨1, 3, 5⟩, ⟨2, 5, 6⟩] [⟨1, 3, 5⟩, ⟨2, 5, 6⟩, ⟨4, 6, 5⟩] ∧
    ∃ out, findMaxpayoffSorted (fun _ => 0) [⟨1, 3, 5⟩, ⟨2, 5, 6⟩, ⟨4, 6, 5⟩] = some out ∧
      (∃ sel, sel.Sublist [⟨4, 6, 5⟩, ⟨1, 3, 5⟩, ⟨2, 5, 6⟩] ∧ Compatible sel ∧
        payoffSum sel = out.maxPayoff) ∧
      (∀ sel, sel.Sublist [⟨4, 6, 5⟩, ⟨1, 3, 5⟩, ⟨2, 5, 6⟩] → Compatible sel →
        payoffSum sel ≤ out.maxPayoff) :=
  ⟨by decide, by decide, by decide, by decide,
    findMaxpayoff_optimal_of_nonneg (fun _ => 0) [⟨4, 6, 5⟩, ⟨1, 3, 5⟩, ⟨2, 5, 6⟩]
      [⟨1, 3, 5⟩, ⟨2, 5, 6⟩, ⟨4, 6, 5⟩] (by decide) (by decide) (by decide) (by decide)⟩

/-- Claim C2, the code at its failing inputs.  On the single interval (1,3,-5) the
run reports -5 and prints nothing, whatever the memory before the table
holds; on (1,5,10), (2,6,3) with 17 in the position before the table it
reports 10 and prints only (2,6,3), whose payoff is 3. -/
theorem selection_sum_differs_from_reported :
    (∀ junk : Int → Int, ∃ out, findMaxpayoffSorted junk [⟨1, 3, -5⟩] = some out ∧
      out.maxPayoff = -5 ∧ out.printed = [] ∧ payoffSum out.printed = 0) ∧
    (∃ out, findMaxpayoffSorted (fun _ => 17) [⟨1, 5, 10⟩, ⟨2, 6, 3⟩] = some out ∧
      out.maxPayoff = 10 ∧ out.printed = [⟨2, 6, 3⟩] ∧ payoffSum out.printed = 3) := by
  constructor
  · intro junk
    refine ⟨⟨-5, [], []⟩, ?_, rfl, rfl, rfl⟩
    simp [findMaxpayoffSorted, buildTable, fillLoop, backtrackLoop, binarySearch,
      binarySearchLoop, arrAt, tableSet]
  · exact ⟨⟨10, [1], [⟨2, 6, 3⟩]⟩, by decide, rfl, rfl, by decide⟩

/-- Claim C3.  For every non-empty input and every outcome of the sort, the run
produces an output in which any two recorded indices a < b satisfy
finish of sorted[a] <= start of sorted[b]; so the printed intervals, which
are listed by increasing sorted index, each finish by the time every later
one starts. -/
theorem selection_nonoverlapping (junk : Int → Int) (input sorted : List Interval)
    (hne : input ≠ []) (hsort : SortResult input sorted) :
    ∃ out, findMaxpayoffSorted junk sorted = some out ∧
      (∀ a ∈ out.resultsIndex, ∀ b ∈ out.resultsIndex, a < b →
        (arrAt sorted a).finish ≤ (arrAt sorted b).start) ∧
      out.printed.Pairwise (fun x y => x.finish ≤ y.start) := by
  have hne2 : sorted ≠ [] := by
    intro h
    apply hne
    have := hsort.1
    rw [h] at this
    exact List.nil_perm.mp this
  obtain ⟨t, new, _, hrun, hb, hpw⟩ := findMaxpayoffSorted_run junk sorted hne2
  have hpair : new.Pairwise (fun a b => b < a ∧
      (arrAt sorted b).finish ≤ (arrAt sorted a).start) := by
    refine List.Pairwise.imp_of_mem ?_ hpw
    intro a b ha hb1 hab
    obtain ⟨p, hp, hbp⟩ := hab
    exact recorded_pair hsort.2 (hb a ha).2 (hb b hb1).1 hp hbp
  refine ⟨_, hrun, ?_, ?_⟩
  · intro a ha b hb1 hab
    rcases pairwise_mem_cases hpair a ha b hb1 with h | h | h
    · omega
    · omega
    · exact h.2
  · show ((new.reverse).map (arrAt sorted)).Pairwise (fun x y => x.finish ≤ y.start)
    rw [List.pairwise_map, List.pairwise_reverse]
    exact List.Pairwise.imp (fun hab => hab.2) hpair

/-- Witness for claim C3: the intervals (3,5,20), (1,5,100), (1,2,50) with the sort
outcome (1,2,50), (1,5,100), (3,5,20). -/
theorem selection_nonoverlapping_witness :
    ([(⟨3, 5, 20⟩ : Interval), ⟨1, 5, 100⟩, ⟨1, 2, 50⟩] ≠ []) ∧
    SortResult [⟨3, 5, 20⟩, ⟨1, 5, 100⟩, ⟨1, 2, 50⟩] [⟨1, 2, 50⟩, ⟨1, 5, 100⟩, ⟨3, 5, 20⟩] ∧
    ∃ out, findMaxpayoffSorted (fun _ => 0) [⟨1, 2, 50⟩, ⟨1, 5, 100⟩, ⟨3, 5, 20⟩] = some out ∧
      (∀ a ∈ out.resultsIndex, ∀ b ∈ out.resultsIndex, a < b →
        (arrAt [⟨1, 2, 50⟩, ⟨1, 5, 100⟩, ⟨3, 5, 20⟩] a).finish
          ≤ (arrAt [⟨1, 2, 50⟩, ⟨1, 5, 100⟩, ⟨3, 5, 20⟩] b).start) ∧
      out.printed.Pairwise (fun x y => x.finish ≤ y.start) :=
  ⟨by decide, by decide,
    selection_nonoverlapping (fun _ => 0) [⟨3, 5, 20⟩, ⟨1, 5, 100⟩, ⟨1, 2, 50⟩]
      [⟨1, 2, 50⟩, ⟨1, 5, 100⟩, ⟨3, 5, 20⟩] (by decide) (by decide)⟩


/-- Claim C4.  In an array sorted by finish, at an index i in range whose interval
has start < finish, the search returns a value r: either r = -1 and no
position below i finishes by the start of interval i, or r is the largest
position below i that does.  At i = 0 it returns -1. -/
theorem binarySearch_predecessor (arr : List Interval) (i : Int) (hs : IsSorted arr)
    (h0 : 0 ≤ i) (hn : i < arr.length)
    (hv : (arrAt arr i).start < (arrAt arr i).finish) :
    ∃ r, binarySearch arr i = some r ∧
      ((r = -1 ∧ ∀ k, 0 ≤ k → k < i → ¬ (arrAt arr k).finish ≤ (arrAt arr i).start) ∨
        (0 ≤ r ∧ r < i ∧ (arrAt arr r).finish ≤ (arrAt arr i).start ∧
          ∀ k, r < k → k < i → ¬ (arrAt arr k).finish ≤ (arrAt arr i).start)) ∧
      (i = 0 → r = -1) := by
  obtain ⟨r, hr⟩ := binarySearch_total arr i
  have hp := binarySearch_complete hs h0 hn hv hr
  refine ⟨r, hr, hp, ?_⟩
  intro hi
  rcases hp with ⟨h, _⟩ | ⟨h1, h2, _⟩
  · exact h
  · omega

/-- Witness for claim C4: index 2 of (1,2,50), (1,5,100), (3,5,20). -/
theorem binarySearch_predecessor_witness :
    IsSorted [⟨1, 2, 50⟩, ⟨1, 5, 100⟩, ⟨3, 5, 20⟩] ∧ (0 : Int) ≤ 2 ∧
    (2 : Int) < ([(⟨1, 2, 50⟩ : Interval), ⟨1, 5, 100⟩, ⟨3, 5, 20⟩].length : Int) ∧
    (arrAt [⟨1, 2, 50⟩, ⟨1, 5, 100⟩, ⟨3, 5, 20⟩] 2).start
      < (arrAt [⟨1, 2, 50⟩, ⟨1, 5, 100⟩, ⟨3, 5, 20⟩] 2).finish ∧
    ∃ r, binarySearch [⟨1, 2, 50⟩, ⟨1, 5, 100⟩, ⟨3, 5, 20⟩] 2 = some r ∧
      ((r = -1 ∧ ∀ k, 0 ≤ k → k < 2 →
          ¬ (arrAt [⟨1, 2, 50⟩, ⟨1, 5, 100⟩, ⟨3, 5, 20⟩] k).finish
            ≤ (arrAt [⟨1, 2, 50⟩, ⟨1, 5, 100⟩, ⟨3, 5, 20⟩] 2).start) ∨
        (0 ≤ r ∧ r < 2 ∧
          (arrAt [⟨1, 2, 50⟩, ⟨1, 5, 100⟩, ⟨3, 5, 20⟩] r).finish
            ≤ (arrAt [⟨1, 2, 50⟩, ⟨1, 5, 100⟩, ⟨3, 5, 20⟩] 2).start ∧
          ∀ k, r < k → k < 2 →
            ¬ (arrAt [⟨1, 2, 50⟩, ⟨1, 5, 100⟩, ⟨3, 5, 20⟩] k).finish
              ≤ (arrAt [⟨1, 2, 50⟩, ⟨1, 5, 100⟩, ⟨3, 5, 20⟩] 2).start)) ∧
      ((2 : Int) = 0 → r = -1) :=
  ⟨by decide, by decide, by decide, by decide,
    binarySearch_predecessor [⟨1, 2, 50⟩, ⟨1, 5, 100⟩, ⟨3, 5, 20⟩] 2 (by decide) (by decide)
      (by decide) (by decide)⟩

/-- Claim C5.  For every non-empty list of intervals with start < finish, every
rearrangement of it, and every outcome of the sort on either list (ties in
finish time may be ordered differently), both runs produce an output and the
two reported payoffs are equal. -/
theorem findMaxpayoff_order_independent (junk1 junk2 : Int → Int)
    (input input2 sorted1 sorted2 : List Interval) (hne : input ≠ [])
    (hvalid : ∀ x ∈ input, x.start < x.finish) (hperm : input2.Perm input)
    (hsort1 : SortResult input sorted1) (hsort2 : SortResult input2 sorted2) :
    ∃ out1 out2, findMaxpayoffSorted junk1 sorted1 = some out1 ∧
      findMaxpayoffSorted junk2 sorted2 = some out2 ∧ out1.maxPayoff = out2.maxPayoff := by
  have hsort2b : SortResult input sorted2 := ⟨hsort2.1.trans hperm, hsort2.2⟩
  have hne1 : sorted1 ≠ [] := by
    intro h
    apply hne
    have := hsort1.1
    rw [h] at this
    exact List.nil_perm.mp this
  have hne2 : sorted2 ≠ [] := by
    intro h
    apply hne
    have := hsort2b.1
    rw [h] at this
    exact List.nil_perm.mp this
  obtain ⟨t1, new1, ht1, hrun1, _, _⟩ := findMaxpayoffSorted_run junk1 sorted1 hne1
  obtain ⟨t2, new2, ht2, hrun2, _, _⟩ := findMaxpayoffSorted_run junk2 sorted2 hne2
  have hc1 := last_entry_char True hne hvalid (fun h => absurd trivial h) hsort1 ht1
  have hc2 := last_entry_char True hne hvalid (fun h => absurd trivial h) hsort2b ht2
  refine ⟨_, _, hrun1, hrun2, ?_⟩
  show t1 _ = t2 _
  obtain ⟨s1, a1, b1, c1, d1⟩ := hc1.2
  obtain ⟨s2, a2, b2, c2, d2⟩ := hc2.2
  have h12 := hc2.1 s1 a1 b1 c1
  have h21 := hc1.1 s2 a2 b2 c2
  omega

/-- Witness for claim C5: (3,5,20), (1,5,100), (1,2,50) and its rearrangement
(1,5,100), (1,2,50), (3,5,20), with the two possible sort outcomes. -/
theorem findMaxpayoff_order_independent_witness :
    ([(⟨3, 5, 20⟩ : Interval), ⟨1, 5, 100⟩, ⟨1, 2, 50⟩] ≠ []) ∧
    (∀ x ∈ [(⟨3, 5, 20⟩ : Interval), ⟨1, 5, 100⟩, ⟨1, 2, 50⟩], x.start < x.finish) ∧
    List.Perm [(⟨1, 5, 100⟩ : Interval), ⟨1, 2, 50⟩, ⟨3, 5, 20⟩]
      [⟨3, 5, 20⟩, ⟨1, 5, 100⟩, ⟨1, 2, 50⟩] ∧
    SortResult [⟨3, 5, 20⟩, ⟨1, 5, 100⟩, ⟨1, 2, 50⟩] [⟨1, 2, 50⟩, ⟨3, 5, 20⟩, ⟨1, 5, 100⟩] ∧
    SortResult [⟨1, 5, 100⟩, ⟨1, 2, 50⟩, ⟨3, 5, 20⟩] [⟨1, 2, 50⟩, ⟨1, 5, 100⟩, ⟨3, 5, 20⟩] ∧
    ∃ out1 out2,
      findMaxpayoffSorted (fun _ => 0) [⟨1, 2, 50⟩, ⟨3, 5, 20⟩, ⟨1, 5, 100⟩] = some out1 ∧
      findMaxpayoffSorted (fun _ => 9) [⟨1, 2, 50⟩, ⟨1, 5, 100⟩, ⟨3, 5, 20⟩] = some out2 ∧
      out1.maxPayoff = out2.maxPayoff :=
  ⟨by decide, by decide, by decide, by decide, by decide,
    findMaxpayoff_order_independent (fun _ => 0) (fun _ => 9)
      [⟨3, 5, 20⟩, ⟨1, 5, 100⟩, ⟨1, 2, 50⟩] [⟨1, 5, 100⟩, ⟨1, 2, 50⟩, ⟨3, 5, 20⟩]
      [⟨1, 2, 50⟩, ⟨3, 5, 20⟩, ⟨1, 5, 100⟩] [⟨1, 2, 50⟩, ⟨1, 5, 100⟩, ⟨3, 5, 20⟩]
      (by decide) (by decide) (by decide) (by decide) (by decide)⟩

/-- Claim C6, the code on the empty input.  With n = 0 the run writes `arr[0].payoff`
to table position 0, reports the content of table position -1, which is
whatever the memory holds there, and records no index. -/
theorem findMaxpayoff_empty_reports_memory (junk : Int → Int) :
    buildTable junk [] = some (tableSet junk 0 (arrAt [] 0).payoff) ∧
    findMaxpayoffSorted junk [] = some ⟨junk (-1), [], []⟩ := by
  constructor
  · rfl
  · simp [findMaxpayoffSorted, buildTable, fillLoop, backtrackLoop, tableSet]

/-- Claim C7, the code on a single interval.  The run reports the payoff; it records
index 0 and prints the interval when the payoff is at least 0, and records
and prints nothing when the payoff is negative, as for (10,20,-7). -/
theorem findMaxpayoff_single (junk : Int → Int) (s f p : Int) :
    findMaxpayoffSorted junk [⟨s, f, p⟩]
      = some ⟨p, if 0 ≤ p then [0] else [], if 0 ≤ p then [⟨s, f, p⟩] else []⟩ := by
  by_cases hp : 0 ≤ p
  · simp [findMaxpayoffSorted, buildTable, fillLoop, backtrackLoop, binarySearch,
      binarySearchLoop, arrAt, tableSet, hp]
  · simp [findMaxpayoffSorted, buildTable, fillLoop, backtrackLoop, binarySearch,
      binarySearchLoop, arrAt, tableSet, hp]

/-- Claim C8.  For every non-empty input and every outcome of the sort, the run
produces an output whose recorded indices are strictly decreasing and lie in
0..n-1; the printed lines are the intervals at those indices taken in reverse,
hence at strictly increasing indices without repetition, and their finish
times are non-decreasing. -/
theorem selection_output_order (junk : Int → Int) (input sorted : List Interval)
    (hne : input ≠ []) (hsort : SortResult input sorted) :
    ∃ out, findMaxpayoffSorted junk sorted = some out ∧
      out.resultsIndex.Pairwise (fun a b => b < a) ∧
      (∀ a ∈ out.resultsIndex, 0 ≤ a ∧ a < sorted.length) ∧
      out.printed = out.resultsIndex.reverse.map (arrAt sorted) ∧
      out.resultsIndex.reverse.Pairwise (fun a b => a < b) ∧
      out.resultsIndex.reverse.Nodup ∧
      out.printed.Pairwise (fun x y => x.finish ≤ y.finish) := by
  have hne2 : sorted ≠ [] := by
    intro h
    apply hne
    have := hsort.1
    rw [h] at this
    exact List.nil_perm.mp this
  obtain ⟨t, new, _, hrun, hb, hpw⟩ := findMaxpayoffSorted_run junk sorted hne2
  have hdec : new.Pairwise (fun a b => b < a) := by
    refine List.Pairwise.imp_of_mem ?_ hpw
    intro a b ha hb1 hab
    obtain ⟨p, hp, hbp⟩ := hab
    exact (recorded_pair hsort.2 (hb a ha).2 (hb b hb1).1 hp hbp).1
  have hinc : new.reverse.Pairwise (fun a b => a < b) := List.pairwise_reverse.mpr hdec
  refine ⟨_, hrun, hdec, hb, rfl, hinc, ?_, ?_⟩
  · exact List.Pairwise.imp (fun h => ne_of_lt h) hinc
  · show ((new.reverse).map (arrAt sorted)).Pairwise (fun x y => x.finish ≤ y.finish)
    rw [List.pairwise_map, List.pairwise_reverse]
    refine List.Pairwise.imp_of_mem ?_ hdec
    intro a b ha hb1 hab
    exact finish_le_of_sorted hsort.2 (hb b hb1).1 (le_of_lt hab) (hb a ha).2

/-- Witness for claim C8: the six intervals of the classic example, entered in
another order. -/
theorem selection_output_order_witness :
    ([(⟨7, 9, 2⟩ : Interval), ⟨5, 8, 11⟩, ⟨1, 3, 5⟩, ⟨6, 7, 4⟩, ⟨2, 5, 6⟩, ⟨4, 6, 5⟩] ≠ []) ∧
    SortResult [⟨7, 9, 2⟩, ⟨5, 8, 11⟩, ⟨1, 3, 5⟩, ⟨6, 7, 4⟩, ⟨2, 5, 6⟩, ⟨4, 6, 5⟩]
      [⟨1, 3, 5⟩, ⟨2, 5, 6⟩, ⟨4, 6, 5⟩, ⟨6, 7, 4⟩, ⟨5, 8, 11⟩, ⟨7, 9, 2⟩] ∧
    ∃ out, findMaxpayoffSorted (fun _ => 0)
        [⟨1, 3, 5⟩, ⟨2, 5, 6⟩, ⟨4, 6, 5⟩, ⟨6, 7, 4⟩, ⟨5, 8, 11⟩, ⟨7, 9, 2⟩] = some out ∧
      out.resultsIndex.Pairwise (fun a b => b < a) ∧
      (∀ a ∈ out.resultsIndex, 0 ≤ a ∧
        a < [(⟨1, 3, 5⟩ : Interval), ⟨2, 5, 6⟩, ⟨4, 6, 5⟩, ⟨6, 7, 4⟩, ⟨5, 8, 11⟩, ⟨7, 9, 2⟩].length) ∧
      out.printed = out.resultsIndex.reverse.map
        (arrAt [⟨1, 3, 5⟩, ⟨2, 5, 6⟩, ⟨4, 6, 5⟩, ⟨6, 7, 4⟩, ⟨5, 8, 11⟩, ⟨7, 9, 2⟩]) ∧
      out.resultsIndex.reverse.Pairwise (fun a b => a < b) ∧
      out.resultsIndex.reverse.Nodup ∧
      out.printed.Pairwise (fun x y => x.finish ≤ y.finish) :=
  ⟨by decide, by decide,
    selection_output_order (fun _ => 0)
      [⟨7, 9, 2⟩, ⟨5, 8, 11⟩, ⟨1, 3, 5⟩, ⟨6, 7, 4⟩, ⟨2, 5, 6⟩, ⟨4, 6, 5⟩]
      [⟨1, 3, 5⟩, ⟨2, 5, 6⟩, ⟨4, 6, 5⟩, ⟨6, 7, 4⟩, ⟨5, 8, 11⟩, ⟨7, 9, 2⟩]
      (by decide) (by decide)⟩


/-- Scenario 2 with exact sums, for both orders in which the sort may leave
the two intervals that finish at 5.  The selection depends on the position
before the table, which the reconstruction reads: when it holds 0 the run
reports 100 and prints (1,5,100) alone; when it holds -1000 the run reports
100 and prints (1,2,50), (3,5,20) for one order and (1,2,50) for the other. -/
theorem scenario2_selection_depends_on_memory :
    (∀ junk : Int → Int,
      findMaxpayoffSorted (tableSet junk (-1) 0) [⟨1, 2, 50⟩, ⟨3, 5, 20⟩, ⟨1, 5, 100⟩]
        = some ⟨100, [2], [⟨1, 5, 100⟩]⟩) ∧
    (∀ junk : Int → Int,
      findMaxpayoffSorted (tableSet junk (-1) 0) [⟨1, 2, 50⟩, ⟨1, 5, 100⟩, ⟨3, 5, 20⟩]
        = some ⟨100, [1], [⟨1, 5, 100⟩]⟩) ∧
    findMaxpayoffSorted (fun _ => -1000) [⟨1, 2, 50⟩, ⟨3, 5, 20⟩, ⟨1, 5, 100⟩]
      = some ⟨100, [1, 0], [⟨1, 2, 50⟩, ⟨3, 5, 20⟩]⟩ ∧
    findMaxpayoffSorted (fun _ => -1000) [⟨1, 2, 50⟩, ⟨1, 5, 100⟩, ⟨3, 5, 20⟩]
      = some ⟨100, [0], [⟨1, 2, 50⟩]⟩ := by
  refine ⟨?_, ?_, by decide, by decide⟩
  · intro junk
    have b1 : binarySearch [⟨1, 2, 50⟩, ⟨3, 5, 20⟩, ⟨1, 5, 100⟩] 1 = some 0 := by decide
    have b2 : binarySearch [⟨1, 2, 50⟩, ⟨3, 5, 20⟩, ⟨1, 5, 100⟩] 2 = some (-1) := by decide
    simp [findMaxpayoffSorted, buildTable, fillLoop, fillStep, backtrackLoop, b1, b2,
      arrAt, tableSet]
  · intro junk
    have b1 : binarySearch [⟨1, 2, 50⟩, ⟨1, 5, 100⟩, ⟨3, 5, 20⟩] 1 = some (-1) := by decide
    have b2 : binarySearch [⟨1, 2, 50⟩, ⟨1, 5, 100⟩, ⟨3, 5, 20⟩] 2 = some 0 := by decide
    simp [findMaxpayoffSorted, buildTable, fillLoop, fillStep, backtrackLoop, b1, b2,
      arrAt, tableSet]

/-- Scenario 3 with exact sums.  The finish times are distinct, so the sort
has one outcome.  When the position before the table holds 0 the run reports
17 and prints (2,5,6), (5,8,11), which total 17; when it holds -1000 the run
reports 17 and prints (1,3,5), (5,8,11), which total 16. -/
theorem scenario3_selection_depends_on_memory :
    (∀ junk : Int → Int,
      findMaxpayoffSorted (tableSet junk (-1) 0)
        [⟨1, 3, 5⟩, ⟨2, 5, 6⟩, ⟨4, 6, 5⟩, ⟨6, 7, 4⟩, ⟨5, 8, 11⟩, ⟨7, 9, 2⟩]
        = some ⟨17, [4, 1], [⟨2, 5, 6⟩, ⟨5, 8, 11⟩]⟩) ∧
    findMaxpayoffSorted (fun _ => -1000)
        [⟨1, 3, 5⟩, ⟨2, 5, 6⟩, ⟨4, 6, 5⟩, ⟨6, 7, 4⟩, ⟨5, 8, 11⟩, ⟨7, 9, 2⟩]
      = some ⟨17, [4, 0], [⟨1, 3, 5⟩, ⟨5, 8, 11⟩]⟩ ∧
    payoffSum [⟨1, 3, 5⟩, ⟨5, 8, 11⟩] = 16 ∧
    payoffSum [⟨2, 5, 6⟩, ⟨5, 8, 11⟩] = 17 := by
  refine ⟨?_, by decide, by decide, by decide⟩
  intro junk
  have b1 : binarySearch [⟨1, 3, 5⟩, ⟨2, 5, 6⟩, ⟨4, 6, 5⟩, ⟨6, 7, 4⟩, ⟨5, 8, 11⟩, ⟨7, 9, 2⟩] 1
      = some (-1) := by decide
  have b2 : binarySearch [⟨1, 3, 5⟩, ⟨2, 5, 6⟩, ⟨4, 6, 5⟩, ⟨6, 7, 4⟩, ⟨5, 8, 11⟩, ⟨7, 9, 2⟩] 2
      = some 0 := by decide
  have b3 : binarySearch [⟨1, 3, 5⟩, ⟨2, 5, 6⟩, ⟨4, 6, 5⟩, ⟨6, 7, 4⟩, ⟨5, 8, 11⟩, ⟨7, 9, 2⟩] 3
      = some 2 := by decide
  have b4 : binarySearch [⟨1, 3, 5⟩, ⟨2, 5, 6⟩, ⟨4, 6, 5⟩, ⟨6, 7, 4⟩, ⟨5, 8, 11⟩, ⟨7, 9, 2⟩] 4
      = some 1 := by decide
  have b5 : binarySearch [⟨1, 3, 5⟩, ⟨2, 5, 6⟩, ⟨4, 6, 5⟩, ⟨6, 7, 4⟩, ⟨5, 8, 11⟩, ⟨7, 9, 2⟩] 5
      = some 3 := by decide
  simp [findMaxpayoffSorted, buildTable, fillLoop, fillStep, backtrackLoop, b1, b2, b3, b4, b5,
    arrAt, tableSet]

/-! ## The positions the search reads, and degenerate intervals -/

theorem binarySearchReadsLoop_spec (arr : List Interval) (index : Int) :
    ∀ (fuel : Nat) (lo hi : Int) (reads : List Int), 0 ≤ lo → hi < index →
      hi - lo + 1 ≤ fuel →
      ∃ r new, binarySearchReadsLoop arr index fuel lo hi reads = some (r, reads ++ new) ∧
        binarySearchLoop arr index fuel lo hi = some r ∧
        ∀ k ∈ new, 0 ≤ k ∧ k ≤ index := by
  intro fuel
  induction fuel with
  | zero =>
    intro lo hi reads _ _ hf
    have : ¬ lo ≤ hi := by omega
    exact ⟨-1, [], by simp [binarySearchReadsLoop, this], by simp [binarySearchLoop, this],
      by simp⟩
  | succ fuel ih =>
    intro lo hi reads h0 hhi hf
    unfold binarySearchReadsLoop binarySearchLoop
    by_cases hle : lo ≤ hi
    · have hm := mid_eq h0 hle
      simp only [hle, if_true, hm]
      by_cases h1 : (arrAt arr ((lo + hi) / 2)).finish ≤ (arrAt arr index).start
      · simp only [h1, if_true]
        by_cases h2 : (arrAt arr ((lo + hi) / 2 + 1)).finish ≤ (arrAt arr index).start
        · simp only [h2, if_true]
          obtain ⟨r, new, e1, e2, e3⟩ := ih ((lo + hi) / 2 + 1) hi
            (reads ++ [(lo + hi) / 2, index, (lo + hi) / 2 + 1, index]) (by omega) hhi
            (by push_cast at hf; omega)
          refine ⟨r, [(lo + hi) / 2, index, (lo + hi) / 2 + 1, index] ++ new,
            by rw [e1, List.append_assoc], e2, ?_⟩
          intro k hk
          rcases List.mem_append.mp hk with hk | hk
          · simp only [List.mem_cons, List.mem_singleton, List.not_mem_nil, or_false] at hk
            omega
          · exact e3 k hk
        · simp only [h2, if_false]
          refine ⟨_, [(lo + hi) / 2, index, (lo + hi) / 2 + 1, index], rfl, rfl, ?_⟩
          intro k hk
          simp only [List.mem_cons, List.mem_singleton, List.not_mem_nil, or_false] at hk
          omega
      · simp only [h1, if_false]
        obtain ⟨r, new, e1, e2, e3⟩ := ih lo ((lo + hi) / 2 - 1)
          (reads ++ [(lo + hi) / 2, index]) h0 (by omega) (by push_cast at hf; omega)
        refine ⟨r, [(lo + hi) / 2, index] ++ new, by rw [e1, List.append_assoc], e2, ?_⟩
        intro k hk
        rcases List.mem_append.mp hk with hk | hk
        · simp only [List.mem_cons, List.mem_singleton, List.not_mem_nil, or_false] at hk
          omega
        · exact e3 k hk
    · simp only [hle, if_false]
      exact ⟨-1, [], by simp, rfl, by simp⟩

theorem binarySearchLoop_degenerate (arr : List Interval) (index : Int)
    (hall : ∀ k : Int, 0 ≤ k → k ≤ index →
      (arrAt arr k).finish ≤ (arrAt arr index).start) :
    ∀ (fuel : Nat) (lo hi r : Int), 0 ≤ lo → hi < index →
      binarySearchLoop arr index fuel lo hi = some r → r = -1 := by
  intro fuel
  induction fuel with
  | zero =>
    intro lo hi r _ _ h
    unfold binarySearchLoop at h
    split at h
    · simp at h
    · simpa using h.symm
  | succ fuel ih =>
    intro lo hi r h0 hhi h
    unfold binarySearchLoop at h
    by_cases hle : lo ≤ hi
    · have hm := mid_eq h0 hle
      have h1 := hall ((lo + hi) / 2) (by omega) (by omega)
      have h2 := hall ((lo + hi) / 2 + 1) (by omega) (by omega)
      simp only [hle, if_true, hm, h1, h2] at h
      exact ih _ _ _ (by omega) hhi h
    · simp only [hle, if_false] at h
      simpa using h.symm

/-- Claim C15.  For every array, sorted or not, and every index, the search
returns a value r; every position of the array it reads lies in 0..index; and
r is -1 or a position with 0 <= r < index whose interval finishes by the start
of the interval at index. -/
theorem binarySearch_reads_and_result (arr : List Interval) (index : Int) :
    ∃ r reads, binarySearchReads arr index = some (r, reads) ∧
      binarySearch arr index = some r ∧
      (∀ k ∈ reads, 0 ≤ k ∧ k ≤ index) ∧
      (r = -1 ∨ (0 ≤ r ∧ r < index ∧
        (arrAt arr r).finish ≤ (arrAt arr index).start)) := by
  have hf : index - 1 - 0 + 1 ≤ (index.toNat : Int) := by
    have := Int.self_le_toNat index
    omega
  obtain ⟨r, new, e1, e2, e3⟩ := binarySearchReadsLoop_spec arr index index.toNat 0
    (index - 1) [] (le_refl _) (by omega) hf
  refine ⟨r, new, by simpa [binarySearchReads] using e1, e2, e3, binarySearch_sound e2⟩

/-- Claim C16.  In an array sorted by finish, at an index i in range whose
interval has finish <= start, the search returns -1, although every position
below i finishes by the start of interval i (for i > 0 there are such
positions, i-1 among them). -/
theorem binarySearch_degenerate (arr : List Interval) (i : Int) (hs : IsSorted arr)
    (hn : i < arr.length)
    (hdeg : (arrAt arr i).finish ≤ (arrAt arr i).start) :
    binarySearch arr i = some (-1) ∧
      ∀ p, 0 ≤ p → p < i → (arrAt arr p).finish ≤ (arrAt arr i).start := by
  have hall : ∀ k : Int, 0 ≤ k → k ≤ i → (arrAt arr k).finish ≤ (arrAt arr i).start :=
    fun k hk0 hki => le_trans (finish_le_of_sorted hs hk0 hki hn) hdeg
  obtain ⟨r, hr⟩ := binarySearch_total arr i
  have := binarySearchLoop_degenerate arr i hall _ 0 (i - 1) r (le_refl _) (by omega) hr
  subst this
  exact ⟨hr, fun p hp0 hpi => hall p hp0 (le_of_lt hpi)⟩

/-- Witness for claim C16: index 1 of (1,2,5), (7,3,4); the interval at index 0
finishes at 2, before 7, yet the search returns -1. -/
theorem binarySearch_degenerate_witness :
    IsSorted [⟨1, 2, 5⟩, ⟨7, 3, 4⟩] ∧
    (1 : Int) < ([(⟨1, 2, 5⟩ : Interval), ⟨7, 3, 4⟩].length : Int) ∧
    (arrAt [⟨1, 2, 5⟩, ⟨7, 3, 4⟩] 1).finish ≤ (arrAt [⟨1, 2, 5⟩, ⟨7, 3, 4⟩] 1).start ∧
    binarySearch [⟨1, 2, 5⟩, ⟨7, 3, 4⟩] 1 = some (-1) ∧
    ∀ p, 0 ≤ p → p < 1 →
      (arrAt [⟨1, 2, 5⟩, ⟨7, 3, 4⟩] p).finish ≤ (arrAt [⟨1, 2, 5⟩, ⟨7, 3, 4⟩] 1).start :=
  ⟨by decide, by decide, by decide,
    binarySearch_degenerate [⟨1, 2, 5⟩, ⟨7, 3, 4⟩] 1 (by decide) (by decide) (by decide)⟩

/-! ## The reconstruction loop, step by step -/

theorem backtrackTrace_spec (arr : List Interval) (t : Int → Int) :
    ∀ (fuel : Nat) (j : Int) (tr : BacktrackTrace), j + 1 ≤ fuel →
      ∃ newR newV newReads,
        backtrackTrace arr t fuel j tr
          = some ⟨tr.resultsIndex ++ newR, tr.visited ++ newV, tr.reads ++ newReads⟩ ∧
        backtrackLoop arr t fuel j tr.resultsIndex = some (tr.resultsIndex ++ newR) ∧
        newR.Sublist newV ∧
        newV.Pairwise (fun a b => b < a) ∧
        (∀ v ∈ newV, 0 ≤ v ∧ v ≤ j) ∧
        (newV.length : Int) ≤ max 0 (j + 1) ∧
        (0 ≤ j → -1 ∈ newReads) ∧
        (∀ k ∈ newReads, -1 ≤ k ∧ k < j) := by
  intro fuel
  induction fuel with
  | zero =>
    intro j tr hf
    have : ¬ 0 ≤ j := by push_cast at hf; omega
    refine ⟨[], [], [], by simp [backtrackTrace, this], by simp [backtrackLoop, this],
      List.Sublist.refl _, List.Pairwise.nil, by simp, by simp, fun h => absurd h this, by simp⟩
  | succ fuel ih =>
    intro j tr hf
    unfold backtrackTrace backtrackLoop
    by_cases hj : 0 ≤ j
    · obtain ⟨p, hp⟩ := binarySearch_total arr j
      have hpj : p = -1 ∨ (0 ≤ p ∧ p < j) := by
        rcases binarySearch_sound hp with h | ⟨h1, h2, _⟩
        · exact Or.inl h
        · exact Or.inr ⟨h1, h2⟩
      simp only [hj, if_true, hp]
      by_cases hc : (arrAt arr j).payoff + t p ≥ t (j - 1)
      · simp only [hc, if_true]
        obtain ⟨newR, newV, newReads, e1, e2, e3, e4, e5, e6, e7, e8⟩ := ih p
          ⟨tr.resultsIndex ++ [j], tr.visited ++ [j], tr.reads ++ [p, j - 1]⟩
          (by push_cast at hf; omega)
        refine ⟨j :: newR, j :: newV, [p, j - 1] ++ newReads, ?_, ?_, ?_, ?_, ?_, ?_, ?_, ?_⟩
        · rw [e1]; simp
        · rw [e2]; simp
        · exact e3.cons₂ j
        · exact List.Pairwise.cons (fun v hv => by have := e5 v hv; omega) e4
        · intro v hv
          rcases List.mem_cons.mp hv with rfl | hv
          · exact ⟨hj, le_refl _⟩
          · have := e5 v hv
            omega
        · simp only [List.length_cons]
          push_cast
          omega
        · intro _
          rcases hpj with h | h
          · simp [h]
          · exact List.mem_append_right _ (e7 h.1)
        · intro k hk
          rcases List.mem_append.mp hk with hk | hk
          · simp only [List.mem_cons, List.mem_singleton, List.not_mem_nil, or_false] at hk
            omega
          · have := e8 k hk
            omega
      · simp only [hc, if_false]
        obtain ⟨newR, newV, newReads, e1, e2, e3, e4, e5, e6, e7, e8⟩ := ih (j - 1)
          ⟨tr.resultsIndex, tr.visited ++ [j], tr.reads ++ [p, j - 1]⟩
          (by push_cast at hf; omega)
        refine ⟨newR, j :: newV, [p, j - 1] ++ newReads, ?_, ?_, ?_, ?_, ?_, ?_, ?_, ?_⟩
        · rw [e1]; simp
        · exact e2
        · exact e3.cons j
        · exact List.Pairwise.cons (fun v hv => by have := e5 v hv; omega) e4
        · intro v hv
          rcases List.mem_cons.mp hv with rfl | hv
          · exact ⟨hj, le_refl _⟩
          · have := e5 v hv
            omega
        · simp only [List.length_cons]
          push_cast
          omega
        · intro _
          by_cases hj0 : j = 0
          · simp [hj0]
          · exact List.mem_append_right _ (e7 (by omega))
        · intro k hk
          rcases List.mem_append.mp hk with hk | hk
          · simp only [List.mem_cons, List.mem_singleton, List.not_mem_nil, or_false] at hk
            omega
          · have := e8 k hk
            omega
    · refine ⟨[], [], [], by simp [hj], by simp [hj], List.Sublist.refl _, List.Pairwise.nil,
        by simp, by simp, fun h => absurd h hj, by simp⟩

theorem buildTable_total (junk : Int → Int) (arr : List Interval) :
    ∃ t, buildTable junk arr = some t := by
  have h0 : TableOK arr junk (tableSet junk 0 (arrAt arr 0).payoff) (1 - 1) := by
    refine ⟨tableSet_same _ _ _, ?_, ?_⟩
    · intro k hk1 hk2; omega
    · intro k hk
      exact tableSet_other _ _ _ (by omega)
  obtain ⟨t, h1, _⟩ := fillLoop_spec arr junk ((arr.length : Int) - 1).toNat 1 _ (le_refl _) h0
  exact ⟨t, h1⟩

/-- The filled part of the table does not depend on what the memory held. -/
theorem tableOK_unique {arr : List Interval} {junk1 junk2 t1 t2 : Int → Int} {m : Int}
    (h1 : TableOK arr junk1 t1 m) (h2 : TableOK arr junk2 t2 m) :
    ∀ k : Nat, (k : Int) ≤ m → t1 k = t2 k := by
  intro k
  induction k using Nat.strong_induction_on with
  | _ k ih =>
  intro hkm
  cases k with
  | zero =>
    have a := h1.1
    have b := h2.1
    simp only [Nat.cast_zero]
    rw [a, b]
  | succ k =>
    obtain ⟨p1, hp1, r1⟩ := h1.2.1 ((k + 1 : Nat) : Int) (by push_cast; omega) hkm
    obtain ⟨p2, hp2, r2⟩ := h2.2.1 ((k + 1 : Nat) : Int) (by push_cast; omega) hkm
    have hp : p1 = p2 := by
      rw [hp1] at hp2
      exact Option.some.inj hp2
    subst hp
    have hprev : ((k + 1 : Nat) : Int) - 1 = (k : Int) := by push_cast; ring
    rw [hprev] at r1 r2
    have e1 : t1 (k : Int) = t2 (k : Int) := ih k (by omega) (by push_cast at hkm; omega)
    rw [r1, r2, e1]
    by_cases hneg : p1 = -1
    · simp [hneg]
    · rcases binarySearch_sound hp1 with h | ⟨h0, hlt, _⟩
      · exact absurd h hneg
      · obtain ⟨q, rfl⟩ := Int.eq_ofNat_of_zero_le h0
        have e2 : t1 (q : Int) = t2 (q : Int) :=
          ih q (by exact_mod_cast hlt) (by omega)
        simp only [hneg, ne_eq, not_false_eq_true, if_true, e2]

/-- On a non-empty array the reported payoff is the same whatever the memory
around the table holds. -/
theorem reported_memory_independent (junk1 junk2 : Int → Int) (arr : List Interval)
    (hne : arr ≠ []) :
    ∃ out1 out2, findMaxpayoffSorted junk1 arr = some out1 ∧
      findMaxpayoffSorted junk2 arr = some out2 ∧ out1.maxPayoff = out2.maxPayoff := by
  obtain ⟨t1, new1, ht1, hrun1, _, _⟩ := findMaxpayoffSorted_run junk1 arr hne
  obtain ⟨t2, new2, ht2, hrun2, _, _⟩ := findMaxpayoffSorted_run junk2 arr hne
  refine ⟨_, _, hrun1, hrun2, ?_⟩
  have hlen : 0 < arr.length := List.length_pos.mpr hne
  have := tableOK_unique ht1 ht2 (arr.length - 1) (by rw [Nat.cast_sub (by omega)]; simp)
  rw [Nat.cast_sub (by omega)] at this
  simpa using this

/-- Claim C11, counterexample.  On the input of Scenario 3 the run reports 17,
and the selection (1,3,5), (4,6,5), (6,7,4) that the scenario names totals 14. -/
theorem scenario3_named_selection_total :
    (findMaxpayoffSorted (fun _ => 0)
      [⟨1, 3, 5⟩, ⟨2, 5, 6⟩, ⟨4, 6, 5⟩, ⟨6, 7, 4⟩, ⟨5, 8, 11⟩, ⟨7, 9, 2⟩]).map Output.maxPayoff
      = some 17 ∧
    payoffSum [⟨1, 3, 5⟩, ⟨4, 6, 5⟩, ⟨6, 7, 4⟩] = 14 ∧
    payoffSum [⟨1, 3, 5⟩, ⟨4, 6, 5⟩, ⟨6, 7, 4⟩] ≠ 17 := by
  refine ⟨by decide, by decide, by decide⟩

/-- Claim C11 as amended.  On the input of Scenario 3 the run reports 17,
whatever the memory holds.  The selection (1,3,5), (4,6,5), (6,7,4) named by
the scenario is a pairwise non-overlapping selection of the input whose payoffs
total 14, less than the reported payoff, so it is not an optimal selection;
the selection (2,5,6), (5,8,11) is a pairwise non-overlapping selection of the
input whose payoffs total the reported payoff. -/
theorem scenario3_named_selection_below_reported (junk : Int → Int) :
    ∃ out, findMaxpayoffSorted junk
        [⟨1, 3, 5⟩, ⟨2, 5, 6⟩, ⟨4, 6, 5⟩, ⟨6, 7, 4⟩, ⟨5, 8, 11⟩, ⟨7, 9, 2⟩] = some out ∧
      out.maxPayoff = 17 ∧
      List.Sublist [(⟨1, 3, 5⟩ : Interval), ⟨4, 6, 5⟩, ⟨6, 7, 4⟩]
        [⟨1, 3, 5⟩, ⟨2, 5, 6⟩, ⟨4, 6, 5⟩, ⟨6, 7, 4⟩, ⟨5, 8, 11⟩, ⟨7, 9, 2⟩] ∧
      Compatible [⟨1, 3, 5⟩, ⟨4, 6, 5⟩, ⟨6, 7, 4⟩] ∧
      payoffSum [⟨1, 3, 5⟩, ⟨4, 6, 5⟩, ⟨6, 7, 4⟩] = 14 ∧
      payoffSum [⟨1, 3, 5⟩, ⟨4, 6, 5⟩, ⟨6, 7, 4⟩] < out.maxPayoff ∧
      List.Sublist [(⟨2, 5, 6⟩ : Interval), ⟨5, 8, 11⟩]
        [⟨1, 3, 5⟩, ⟨2, 5, 6⟩, ⟨4, 6, 5⟩, ⟨6, 7, 4⟩, ⟨5, 8, 11⟩, ⟨7, 9, 2⟩] ∧
      Compatible [⟨2, 5, 6⟩, ⟨5, 8, 11⟩] ∧
      payoffSum [⟨2, 5, 6⟩, ⟨5, 8, 11⟩] = out.maxPayoff := by
  obtain ⟨out1, out2, h1, h2, h12⟩ := reported_memory_independent junk (fun _ => 0)
    [⟨1, 3, 5⟩, ⟨2, 5, 6⟩, ⟨4, 6, 5⟩, ⟨6, 7, 4⟩, ⟨5, 8, 11⟩, ⟨7, 9, 2⟩] (by decide)
  have hconc : findMaxpayoffSorted (fun _ => 0)
      [⟨1, 3, 5⟩, ⟨2, 5, 6⟩, ⟨4, 6, 5⟩, ⟨6, 7, 4⟩, ⟨5, 8, 11⟩, ⟨7, 9, 2⟩]
      = some ⟨17, [4, 1], [⟨2, 5, 6⟩, ⟨5, 8, 11⟩]⟩ := by decide
  rw [hconc] at h2
  have h17 : out1.maxPayoff = 17 := by
    rw [h12, ← Option.some.inj h2]
  refine ⟨out1, h1, h17, by decide, by decide, by decide, ?_, by decide, by decide, ?_⟩
  · rw [h17]; decide
  · rw [h17]; decide

/-- Claim C12.  For every non-empty array, whatever its intervals and their
order, the table is built and every entry at an index i with 0 < i < n is at
least the entry before it. -/
theorem table_monotone (junk : Int → Int) (arr : List Interval) (hne : arr ≠ []) :
    ∃ t, buildTable junk arr = some t ∧
      ∀ i : Int, 0 < i → i < arr.length → t (i - 1) ≤ t i := by
  obtain ⟨t, h1, h2⟩ := buildTable_spec junk arr hne
  exact ⟨t, h1, fun i hi0 hin => table_mono h2 (by omega) (by omega)⟩

/-- Witness for claim C12: an array that is neither sorted nor valid and has a
negative payoff. -/
theorem table_monotone_witness :
    ([(⟨9, 4, -3⟩ : Interval), ⟨1, 2, 8⟩, ⟨5, 5, -1⟩] ≠ []) ∧
    ∃ t, buildTable (fun _ => 0) [⟨9, 4, -3⟩, ⟨1, 2, 8⟩, ⟨5, 5, -1⟩] = some t ∧
      ∀ i : Int, 0 < i → i < [(⟨9, 4, -3⟩ : Interval), ⟨1, 2, 8⟩, ⟨5, 5, -1⟩].length →
        t (i - 1) ≤ t i :=
  ⟨by decide, table_monotone (fun _ => 0) [⟨9, 4, -3⟩, ⟨1, 2, 8⟩, ⟨5, 5, -1⟩] (by decide)⟩

/-- Claim C13, the code on any non-empty array `a :: rest`.  The reconstruction
loop runs to its end and reads table position -1, one before the table; all
its table reads lie in -1..n-1.  On the single interval (1,3,5) the two
reads of the only iteration are both at position -1. -/
theorem reconstruction_reads_before_table :
    (∀ (junk : Int → Int) (a : Interval) (rest : List Interval),
      ∃ t tr, buildTable junk (a :: rest) = some t ∧
        backtrackTrace (a :: rest) t (a :: rest).length (((a :: rest).length : Int) - 1)
          ⟨[], [], []⟩ = some tr ∧
        backtrackLoop (a :: rest) t (a :: rest).length (((a :: rest).length : Int) - 1) []
          = some tr.resultsIndex ∧
        (-1) ∈ tr.reads ∧
        ∀ k ∈ tr.reads, -1 ≤ k ∧ k < (a :: rest).length) ∧
    (∀ junk : Int → Int,
      buildTable junk [⟨1, 3, 5⟩] = some (tableSet junk 0 5) ∧
      backtrackTrace [⟨1, 3, 5⟩] (tableSet junk 0 5) 1 0 ⟨[], [], []⟩
        = some ⟨[0], [0], [-1, -1]⟩) := by
  constructor
  · intro junk a rest
    obtain ⟨t, ht⟩ := buildTable_total junk (a :: rest)
    obtain ⟨newR, newV, newReads, e1, e2, _, _, _, _, e7, e8⟩ :=
      backtrackTrace_spec (a :: rest) t (a :: rest).length (((a :: rest).length : Int) - 1)
        ⟨[], [], []⟩ (by omega)
    refine ⟨t, _, ht, e1, by simpa using e2, ?_, ?_⟩
    · have : (0 : Int) ≤ ((a :: rest).length : Int) - 1 := by
        simp only [List.length_cons]; push_cast; omega
      simpa using e7 this
    · intro k hk
      have := e8 k (by simpa using hk)
      omega
  · intro junk
    have b0 : binarySearch [⟨1, 3, 5⟩] 0 = some (-1) := by decide
    constructor
    · rfl
    · simp [backtrackTrace, b0, arrAt, tableSet]

/-- Prefix optimality with exact sums.  For every non-empty list of intervals
with start < finish and payoff >= 0 and every outcome of the sort, the table
with exact sums is built and, at every
index i in 0..n-1, its entry is the total payoff of some pairwise
non-overlapping selection among the sorted intervals at indices up to i and is
at least the total payoff of every such selection, the empty one included.
The last entry is therefore the best total payoff over the pairwise
non-overlapping selections of the input. -/
theorem table_prefix_optimal (junk : Int → Int) (input sorted : List Interval)
    (hne : input ≠ []) (hvalid : ∀ x ∈ input, x.start < x.finish)
    (hpay : ∀ x ∈ input, 0 ≤ x.payoff) (hsort : SortResult input sorted) :
    ∃ t, buildTable junk sorted = some t ∧
      (∀ i : Nat, i < sorted.length →
        (∃ sel, sel.Sublist (sorted.take (i + 1)) ∧ Compatible sel ∧ payoffSum sel = t i) ∧
        (∀ sel, sel.Sublist (sorted.take (i + 1)) → Compatible sel → payoffSum sel ≤ t i)) ∧
      (∃ sel, sel.Sublist input ∧ Compatible sel ∧
        payoffSum sel = t ((sorted.length : Int) - 1)) ∧
      (∀ sel, sel.Sublist input → Compatible sel →
        payoffSum sel ≤ t ((sorted.length : Int) - 1)) := by
  have hne2 : sorted ≠ [] := by
    intro h
    apply hne
    have := hsort.1
    rw [h] at this
    exact List.nil_perm.mp this
  have hv : ∀ x ∈ sorted, x.start < x.finish :=
    fun x hx => hvalid x (hsort.1.mem_iff.mp hx)
  have hp : ¬ False → ∀ x ∈ sorted, 0 ≤ x.payoff :=
    fun _ x hx => hpay x (hsort.1.mem_iff.mp hx)
  obtain ⟨t, h1, ht⟩ := buildTable_spec junk sorted hne2
  have hlast := last_entry_char False hne hvalid (fun _ => hpay) hsort ht
  refine ⟨t, h1, ?_, ?_, ?_⟩
  · intro i hi
    have hchar := table_char False hsort.2 hv hp ht i hi (by omega)
    constructor
    · obtain ⟨c, c1, c2, _, c4⟩ := hchar.2
      exact ⟨c, c1, compatible_of_chain c2, c4⟩
    · intro sel hsel hcomp
      exact hchar.1 sel hsel
        (chain_of_compatible hsort.2 hv (hsel.trans (List.take_sublist _ _)) hcomp)
        (fun h => h.elim)
  · obtain ⟨sel, s1, s2, _, s4⟩ := hlast.2
    exact ⟨sel, s1, s2, s4⟩
  · intro sel s1 s2
    exact hlast.1 sel s1 s2 (fun h => h.elim)

/-- An instance of prefix optimality with exact sums: the intervals (4,6,5),
(1,3,5), (2,5,6), sorted to
(1,3,5), (2,5,6), (4,6,5). -/
theorem table_prefix_optimal_witness :
    ([(⟨4, 6, 5⟩ : Interval), ⟨1, 3, 5⟩, ⟨2, 5, 6⟩] ≠ []) ∧
    (∀ x ∈ [(⟨4, 6, 5⟩ : Interval), ⟨1, 3, 5⟩, ⟨2, 5, 6⟩], x.start < x.finish) ∧
    (∀ x ∈ [(⟨4, 6, 5⟩ : Interval), ⟨1, 3, 5⟩, ⟨2, 5, 6⟩], 0 ≤ x.payoff) ∧
    SortResult [⟨4, 6, 5⟩, ⟨1, 3, 5⟩, ⟨2, 5, 6⟩] [⟨1, 3, 5⟩, ⟨2, 5, 6⟩, ⟨4, 6, 5⟩] ∧
    ∃ t, buildTable (fun _ => 0) [⟨1, 3, 5⟩, ⟨2, 5, 6⟩, ⟨4, 6, 5⟩] = some t ∧
      (∀ i : Nat, i < [(⟨1, 3, 5⟩ : Interval), ⟨2, 5, 6⟩, ⟨4, 6, 5⟩].length →
        (∃ sel, sel.Sublist ([(⟨1, 3, 5⟩ : Interval), ⟨2, 5, 6⟩, ⟨4, 6, 5⟩].take (i + 1)) ∧
          Compatible sel ∧ payoffSum sel = t i) ∧
        (∀ sel, sel.Sublist ([(⟨1, 3, 5⟩ : Interval), ⟨2, 5, 6⟩, ⟨4, 6, 5⟩].take (i + 1)) →
          Compatible sel → payoffSum sel ≤ t i)) ∧
      (∃ sel, sel.Sublist [⟨4, 6, 5⟩, ⟨1, 3, 5⟩, ⟨2, 5, 6⟩] ∧ Compatible sel ∧
        payoffSum sel = t (([(⟨1, 3, 5⟩ : Interval), ⟨2, 5, 6⟩, ⟨4, 6, 5⟩].length : Int) - 1)) ∧
      (∀ sel, sel.Sublist [⟨4, 6, 5⟩, ⟨1, 3, 5⟩, ⟨2, 5, 6⟩] → Compatible sel →
        payoffSum sel ≤ t (([(⟨1, 3, 5⟩ : Interval), ⟨2, 5, 6⟩, ⟨4, 6, 5⟩].length : Int) - 1)) :=
  ⟨by decide, by decide, by decide, by decide,
    table_prefix_optimal (fun _ => 0) [⟨4, 6, 5⟩, ⟨1, 3, 5⟩, ⟨2, 5, 6⟩]
      [⟨1, 3, 5⟩, ⟨2, 5, 6⟩, ⟨4, 6, 5⟩] (by decide) (by decide) (by decide) (by decide)⟩

/-- Claim C17.  For every array of n intervals and every table, the
reconstruction loop started at j = n-1 ends within n iterations: the values
of j at its iterations are strictly decreasing and at most n in number, the
recorded indices are among them, so at most n are recorded and they fill
positions 0..n-1 of `resultsIndex` at most.  Each iteration continues with
the search result, which is below j, or with j-1. -/
theorem reconstruction_terminates (junk : Int → Int) (arr : List Interval) :
    (∃ t, buildTable junk arr = some t) ∧
    (∀ j p : Int, 0 ≤ j → binarySearch arr j = some p → p < j) ∧
    ∀ t : Int → Int, ∃ tr,
      backtrackTrace arr t arr.length ((arr.length : Int) - 1) ⟨[], [], []⟩ = some tr ∧
      backtrackLoop arr t arr.length ((arr.length : Int) - 1) [] = some tr.resultsIndex ∧
      tr.visited.length ≤ arr.length ∧
      tr.visited.Pairwise (fun a b => b < a) ∧
      tr.resultsIndex.Sublist tr.visited ∧
      tr.resultsIndex.length ≤ arr.length := by
  refine ⟨buildTable_total junk arr, ?_, ?_⟩
  · intro j p hj hp
    rcases binarySearch_sound hp with h | ⟨_, h, _⟩ <;> omega
  · intro t
    obtain ⟨newR, newV, newReads, e1, e2, e3, e4, _, e6, _, _⟩ :=
      backtrackTrace_spec arr t arr.length ((arr.length : Int) - 1) ⟨[], [], []⟩ (by omega)
    have hlen : newV.length ≤ arr.length := by
      have : max (0 : Int) ((arr.length : Int) - 1 + 1) = arr.length := by
        rw [max_eq_right (by omega)]; ring
      rw [this] at e6
      exact_mod_cast e6
    refine ⟨_, e1, by simpa using e2, by simpa using hlen, by simpa using e4,
      by simpa using e3, ?_⟩
    have := e3.length_le
    simp only [List.nil_append]
    omega

theorem recursive_agrees (arr : List Interval) (t ri0 : Int → Int) :
    ∀ (fuel : Nat) (j : Int) (acc : List Int) (s : RecState), j + 1 ≤ fuel →
      s.n = (acc.length : Int) - 1 →
      (∀ k : Nat, k < acc.length → acc[k]? = some (s.resultsIndex k)) →
      (∀ k : Int, (k < 0 ∨ (acc.length : Int) ≤ k) → s.resultsIndex k = ri0 k) →
      ∃ res s1, backtrackLoop arr t fuel j acc = some res ∧
        BacktrackForSolution arr t fuel j s = some s1 ∧
        s1.n = (res.length : Int) - 1 ∧
        (∀ k : Nat, k < res.length → res[k]? = some (s1.resultsIndex k)) ∧
        (∀ k : Int, (k < 0 ∨ (res.length : Int) ≤ k) → s1.resultsIndex k = ri0 k) := by
  intro fuel
  induction fuel with
  | zero =>
    intro j acc s hf hn hseq hout
    have : ¬ 0 ≤ j := by push_cast at hf; omega
    have h2 : ¬ j ≥ 0 := this
    exact ⟨acc, s, by simp [backtrackLoop, this], by simp [BacktrackForSolution, h2],
      hn, hseq, hout⟩
  | succ fuel ih =>
    intro j acc s hf hn hseq hout
    unfold backtrackLoop BacktrackForSolution
    by_cases hj : 0 ≤ j
    · have hj2 : j ≥ 0 := hj
      obtain ⟨p, hp⟩ := binarySearch_total arr j
      have hpj : p < j := by
        rcases binarySearch_sound hp with h | ⟨_, h, _⟩ <;> omega
      simp only [hj, hj2, if_true, hp]
      by_cases hc : (arrAt arr j).payoff + t p ≥ t (j - 1)
      · simp only [hc, if_true]
        refine ih p (acc ++ [j]) _ (by push_cast at hf; omega) ?_ ?_ ?_
        · simp only [List.length_append, List.length_singleton]
          push_cast
          omega
        · intro k hk
          simp only [List.length_append, List.length_singleton] at hk
          by_cases hkl : k < acc.length
          · rw [List.getElem?_append_left hkl, hseq k hkl]
            have : (k : Int) ≠ s.n + 1 := by omega
            simp [tableSet, this]
          · have hke : k = acc.length := by omega
            subst hke
            have : ((acc.length : Nat) : Int) = s.n + 1 := by omega
            simp [tableSet, this]
        · intro k hk
          simp only [List.length_append, List.length_singleton] at hk
          push_cast at hk
          have : k ≠ s.n + 1 := by omega
          simp only [tableSet, this, if_false]
          exact hout k (by omega)
      · simp only [hc, if_false]
        exact ih (j - 1) acc s (by push_cast at hf; omega) hn hseq hout
    · have hj2 : ¬ j ≥ 0 := hj
      exact ⟨acc, s, by simp [hj], by simp [hj2], hn, hseq, hout⟩

/-- Claim C18.  For every array, table and start index j, the recursive
`BacktrackForSolution` called with n = -1 and the loop of `findMaxpayoff`
started at the same j with nothing recorded both finish, reading the same
table; the recursive one ends with n equal to the number of indices the loop
recorded minus one, holds the same indices at positions 0..n of
`resultsIndex`, and leaves every other position of that array as it was. -/
theorem recursive_matches_iterative (arr : List Interval) (table ri0 : Int → Int) (j : Int) :
    ∃ res s, backtrackLoop arr table (j + 1).toNat j [] = some res ∧
      BacktrackForSolution arr table (j + 1).toNat j ⟨ri0, -1, []⟩ = some s ∧
      s.n = (res.length : Int) - 1 ∧
      (∀ k : Nat, k < res.length → res[k]? = some (s.resultsIndex k)) ∧
      (∀ k : Int, (k < 0 ∨ (res.length : Int) ≤ k) → s.resultsIndex k = ri0 k) := by
  have hf : j + 1 ≤ (((j + 1).toNat : Nat) : Int) := Int.self_le_toNat (j + 1)
  exact recursive_agrees arr table ri0 (j + 1).toNat j [] ⟨ri0, -1, []⟩ hf (by simp)
    (fun k hk => by simp at hk) (fun k _ => rfl)

/-! ## Runs with 32-bit sums -/

theorem wrapInt_eq_self {x : Int} (h1 : -2147483648 ≤ x) (h2 : x ≤ 2147483647) :
    wrapInt x = x := by
  unfold wrapInt
  omega

theorem tableOK_agree {arr : List Interval} {junk1 junk2 t1 t2 : Int → Int} {m1 m2 : Int}
    (h1 : TableOK arr junk1 t1 m1) (h2 : TableOK arr junk2 t2 m2) :
    ∀ k : Nat, (k : Int) ≤ m1 → (k : Int) ≤ m2 → t1 k = t2 k := by
  intro k
  induction k using Nat.strong_induction_on with
  | _ k ih =>
  intro hk1 hk2
  cases k with
  | zero =>
    have a := h1.1
    have b := h2.1
    simp only [Nat.cast_zero]
    rw [a, b]
  | succ k =>
    obtain ⟨p1, hp1, r1⟩ := h1.2.1 ((k + 1 : Nat) : Int) (by push_cast; omega) hk1
    obtain ⟨p2, hp2, r2⟩ := h2.2.1 ((k + 1 : Nat) : Int) (by push_cast; omega) hk2
    have hp : p1 = p2 := by
      rw [hp1] at hp2
      exact Option.some.inj hp2
    subst hp
    have hprev : ((k + 1 : Nat) : Int) - 1 = (k : Int) := by push_cast; ring
    rw [hprev] at r1 r2
    have e1 : t1 (k : Int) = t2 (k : Int) :=
      ih k (by omega) (by push_cast at hk1; omega) (by push_cast at hk2; omega)
    rw [r1, r2, e1]
    by_cases hneg : p1 = -1
    · simp [hneg]
    · rcases binarySearch_sound hp1 with h | ⟨h0, hlt, _⟩
      · exact absurd h hneg
      · obtain ⟨q, rfl⟩ := Int.eq_ofNat_of_zero_le h0
        have e2 : t1 (q : Int) = t2 (q : Int) :=
          ih q (by exact_mod_cast hlt) (by omega) (by omega)
        simp only [hneg, ne_eq, not_false_eq_true, if_true, e2]

theorem table_mono_le {arr : List Interval} {junk t : Int → Int} {m : Int}
    (ht : TableOK arr junk t m) (a : Nat) :
    ∀ b : Nat, a ≤ b → (b : Int) ≤ m → t a ≤ t b := by
  intro b
  induction b with
  | zero =>
    intro hab _
    have : a = 0 := by omega
    subst this
    exact le_refl _
  | succ b ih =>
    intro hab hbm
    rcases Nat.eq_or_lt_of_le hab with h | h
    · subst h; exact le_refl _
    · have h1 := ih (by omega) (by push_cast at hbm; omega)
      have h2 := table_mono ht (k := ((b + 1 : Nat) : Int)) (by push_cast; omega) hbm
      have e : ((b + 1 : Nat) : Int) - 1 = (b : Int) := by push_cast; ring
      rw [e] at h2
      exact le_trans h1 h2

theorem fillLoop32_eq (arr : List Interval) (junk : Int → Int)
    (hb : ∀ (t : Int → Int) (i : Int), 1 ≤ i → i < arr.length → TableOK arr junk t (i - 1) →
      fillStep32 arr t i = fillStep arr t i) :
    ∀ (cnt : Nat) (i : Int) (t : Int → Int), 1 ≤ i → i + cnt ≤ arr.length →
      TableOK arr junk t (i - 1) → fillLoop32 arr cnt i t = fillLoop arr cnt i t := by
  intro cnt
  induction cnt with
  | zero => intro i t _ _ _; rfl
  | succ cnt ih =>
    intro i t hi hn ht
    obtain ⟨t1, h1, ht1⟩ := fillStep_spec arr junk t i hi ht
    simp only [fillLoop32, fillLoop, hb t i hi (by push_cast at hn; omega) ht, h1]
    exact ih (i + 1) t1 (by omega) (by push_cast at hn ⊢; omega) (by simpa using ht1)

theorem payoffSum_sublist_le {l : List Interval} (hpay : ∀ x ∈ l, 0 ≤ x.payoff)
    {sel : List Interval} (h : sel.Sublist l) : payoffSum sel ≤ payoffSum l := by
  induction h with
  | slnil => exact le_refl _
  | cons a _ ih =>
    have h1 := ih (fun x hx => hpay x (List.mem_cons_of_mem _ hx))
    have h2 := hpay a (List.mem_cons_self _ _)
    simp only [payoffSum, List.map_cons, List.sum_cons] at h1 ⊢
    omega
  | cons₂ a _ ih =>
    have h1 := ih (fun x hx => hpay x (List.mem_cons_of_mem _ hx))
    simp only [payoffSum, List.map_cons, List.sum_cons] at h1 ⊢
    omega

/-- When every non-overlapping selection of the input has a total payoff that
fits in `int`, no sum of the table-filling loop leaves the range of `int`, and
the table with 32-bit sums is the table with exact sums. -/
theorem buildTable32_eq (junk : Int → Int) (input sorted : List Interval)
    (hne : input ≠ []) (hvalid : ∀ x ∈ input, x.start < x.finish)
    (hpay : ∀ x ∈ input, 0 ≤ x.payoff)
    (hfit : ∀ sel, sel.Sublist input → Compatible sel → payoffSum sel ≤ 2147483647)
    (hsort : SortResult input sorted) :
    buildTable32 junk sorted = buildTable junk sorted := by
  have hne2 : sorted ≠ [] := by
    intro h
    apply hne
    have := hsort.1
    rw [h] at this
    exact List.nil_perm.mp this
  have hlen : 0 < sorted.length := List.length_pos.mpr hne2
  have hp : ∀ x ∈ sorted, 0 ≤ x.payoff := fun x hx => hpay x (hsort.1.mem_iff.mp hx)
  obtain ⟨T, _, hT⟩ := buildTable_spec junk sorted hne2
  have hlast := last_entry_char False hne hvalid (fun _ => hpay) hsort hT
  have hmax : T ((sorted.length : Int) - 1) ≤ 2147483647 := by
    obtain ⟨sel, s1, s2, _, s4⟩ := hlast.2
    rw [← s4]
    exact hfit sel s1 s2
  have hT0 : 0 ≤ T 0 := by
    rw [hT.1, show (0 : Int) = ((0 : Nat) : Int) from rfl, arrAt_natCast sorted 0 hlen]
    exact hp _ (List.getElem_mem hlen)
  have hb : ∀ (t : Int → Int) (i : Int), 1 ≤ i → i < sorted.length →
      TableOK sorted junk t (i - 1) → fillStep32 sorted t i = fillStep sorted t i := by
    intro t i hi hin ht
    obtain ⟨p, hp1, hrec⟩ := hT.2.1 i hi (by omega)
    simp only [fillStep32, fillStep, hp1]
    by_cases hneg : p = -1
    · simp [hneg]
    · rcases binarySearch_sound hp1 with h | ⟨h0, hlt, _⟩
      · exact absurd h hneg
      · obtain ⟨q, rfl⟩ := Int.eq_ofNat_of_zero_le h0
        obtain ⟨k, rfl⟩ := Int.eq_ofNat_of_zero_le (show (0 : Int) ≤ i by omega)
        have hk : k < sorted.length := by exact_mod_cast hin
        have hqk : q < k := by exact_mod_cast hlt
        have e : t (q : Int) = T (q : Int) := tableOK_agree ht hT q (by omega) (by omega)
        have hwi : 0 ≤ (arrAt sorted (k : Int)).payoff := by
          rw [arrAt_natCast sorted k hk]
          exact hp _ (List.getElem_mem hk)
        have hTq : T 0 ≤ T (q : Int) := by
          have := table_mono_le hT 0 q (by omega) (by omega)
          simpa using this
        have hTk : T (k : Int) ≤ T ((sorted.length : Int) - 1) := by
          have := table_mono_le hT k (sorted.length - 1) (by omega)
            (by rw [Nat.cast_sub (by omega)]; simp)
          rwa [Nat.cast_sub (by omega), Nat.cast_one] at this
        have hle : (arrAt sorted (k : Int)).payoff + T (q : Int) ≤ T (k : Int) := by
          rw [hrec]
          simp only [hneg, ne_eq, not_false_eq_true, if_true]
          exact le_max_left _ _
        have hw : wrapInt ((arrAt sorted (k : Int)).payoff + t (q : Int))
            = (arrAt sorted (k : Int)).payoff + t (q : Int) := by
          rw [e]
          exact wrapInt_eq_self (by omega) (by omega)
        simp only [hneg, ne_eq, not_false_eq_true, if_true, hw]
  have h0 : TableOK sorted junk (tableSet junk 0 (arrAt sorted 0).payoff) (1 - 1) := by
    refine ⟨tableSet_same _ _ _, ?_, ?_⟩
    · intro k hk1 hk2; omega
    · intro k hk
      exact tableSet_other _ _ _ (by omega)
  unfold buildTable32 buildTable
  refine fillLoop32_eq sorted junk hb _ 1 _ (le_refl _) ?_ h0
  rw [Int.toNat_of_nonneg (by omega)]
  omega

/-- Claim C14, counterexample.  On the valid input (1,2,2147483647), (3,4,1)
with payoffs >= 0, already in finish order, the sum 1 + 2147483647 leaves the
range of `int`: the table entry at index 1 is 2147483647, while the two
intervals together are a non-overlapping selection among the sorted intervals
up to index 1 and pay 2147483648. -/
theorem table32_not_prefix_optimal_on_overflow :
    SortResult [⟨1, 2, 2147483647⟩, ⟨3, 4, 1⟩] [⟨1, 2, 2147483647⟩, ⟨3, 4, 1⟩] ∧
    (∀ x ∈ [(⟨1, 2, 2147483647⟩ : Interval), ⟨3, 4, 1⟩], x.start < x.finish) ∧
    (∀ x ∈ [(⟨1, 2, 2147483647⟩ : Interval), ⟨3, 4, 1⟩], 0 ≤ x.payoff) ∧
    (buildTable32 (fun _ => 0) [⟨1, 2, 2147483647⟩, ⟨3, 4, 1⟩]).map (fun t => t 1)
      = some 2147483647 ∧
    List.Sublist [(⟨1, 2, 2147483647⟩ : Interval), ⟨3, 4, 1⟩]
      ([(⟨1, 2, 2147483647⟩ : Interval), ⟨3, 4, 1⟩].take (1 + 1)) ∧
    Compatible [(⟨1, 2, 2147483647⟩ : Interval), ⟨3, 4, 1⟩] ∧
    payoffSum [(⟨1, 2, 2147483647⟩ : Interval), ⟨3, 4, 1⟩] = 2147483648 := by
  refine ⟨by decide, by decide, by decide, by decide, by decide, by decide, by decide⟩

/-- Claim C14 as amended.  For every non-empty list of intervals with
start < finish and payoff >= 0 in which every pairwise non-overlapping
selection has a total payoff of at most 2147483647, and every outcome of the
sort, the table with 32-bit sums is built and, at every index i in 0..n-1, its
entry is the total payoff of some pairwise non-overlapping selection among the
sorted intervals at indices up to i and is at least the total payoff of every
such selection, the empty one included.  The last entry is therefore the best
total payoff over the pairwise non-overlapping selections of the input. -/
theorem table32_prefix_optimal (junk : Int → Int) (input sorted : List Interval)
    (hne : input ≠ []) (hvalid : ∀ x ∈ input, x.start < x.finish)
    (hpay : ∀ x ∈ input, 0 ≤ x.payoff)
    (hfit : ∀ sel, sel.Sublist input → Compatible sel → payoffSum sel ≤ 2147483647)
    (hsort : SortResult input sorted) :
    ∃ t, buildTable32 junk sorted = some t ∧
      (∀ i : Nat, i < sorted.length →
        (∃ sel, sel.Sublist (sorted.take (i + 1)) ∧ Compatible sel ∧ payoffSum sel = t i) ∧
        (∀ sel, sel.Sublist (sorted.take (i + 1)) → Compatible sel → payoffSum sel ≤ t i)) ∧
      (∃ sel, sel.Sublist input ∧ Compatible sel ∧
        payoffSum sel = t ((sorted.length : Int) - 1)) ∧
      (∀ sel, sel.Sublist input → Compatible sel →
        payoffSum sel ≤ t ((sorted.length : Int) - 1)) := by
  rw [buildTable32_eq junk input sorted hne hvalid hpay hfit hsort]
  exact table_prefix_optimal junk input sorted hne hvalid hpay hsort

/-- Witness for claim C14 as amended: the intervals (4,6,5), (1,3,5), (2,5,6),
sorted to (1,3,5), (2,5,6), (4,6,5); all payoffs together are 16. -/
theorem table32_prefix_optimal_witness :
    ([(⟨4, 6, 5⟩ : Interval), ⟨1, 3, 5⟩, ⟨2, 5, 6⟩] ≠ []) ∧
    (∀ x ∈ [(⟨4, 6, 5⟩ : Interval), ⟨1, 3, 5⟩, ⟨2, 5, 6⟩], x.start < x.finish) ∧
    (∀ x ∈ [(⟨4, 6, 5⟩ : Interval), ⟨1, 3, 5⟩, ⟨2, 5, 6⟩], 0 ≤ x.payoff) ∧
    (∀ sel, sel.Sublist [(⟨4, 6, 5⟩ : Interval), ⟨1, 3, 5⟩, ⟨2, 5, 6⟩] → Compatible sel →
      payoffSum sel ≤ 2147483647) ∧
    SortResult [⟨4, 6, 5⟩, ⟨1, 3, 5⟩, ⟨2, 5, 6⟩] [⟨1, 3, 5⟩, ⟨2, 5, 6⟩, ⟨4, 6, 5⟩] ∧
    ∃ t, buildTable32 (fun _ => 0) [⟨1, 3, 5⟩, ⟨2, 5, 6⟩, ⟨4, 6, 5⟩] = some t ∧
      (∀ i : Nat, i < [(⟨1, 3, 5⟩ : Interval), ⟨2, 5, 6⟩, ⟨4, 6, 5⟩].length →
        (∃ sel, sel.Sublist ([(⟨1, 3, 5⟩ : Interval), ⟨2, 5, 6⟩, ⟨4, 6, 5⟩].take (i + 1)) ∧
          Compatible sel ∧ payoffSum sel = t i) ∧
        (∀ sel, sel.Sublist ([(⟨1, 3, 5⟩ : Interval), ⟨2, 5, 6⟩, ⟨4, 6, 5⟩].take (i + 1)) →
          Compatible sel → payoffSum sel ≤ t i)) ∧
      (∃ sel, sel.Sublist [⟨4, 6, 5⟩, ⟨1, 3, 5⟩, ⟨2, 5, 6⟩] ∧ Compatible sel ∧
        payoffSum sel = t (([(⟨1, 3, 5⟩ : Interval), ⟨2, 5, 6⟩, ⟨4, 6, 5⟩].length : Int) - 1)) ∧
      (∀ sel, sel.Sublist [⟨4, 6, 5⟩, ⟨1, 3, 5⟩, ⟨2, 5, 6⟩] → Compatible sel →
        payoffSum sel ≤ t (([(⟨1, 3, 5⟩ : Interval), ⟨2, 5, 6⟩, ⟨4, 6, 5⟩].length : Int) - 1)) :=
  ⟨by decide, by decide, by decide,
    fun sel hs _ => le_trans (payoffSum_sublist_le (by decide) hs) (by decide),
    by decide,
    table32_prefix_optimal (fun _ => 0) [⟨4, 6, 5⟩, ⟨1, 3, 5⟩, ⟨2, 5, 6⟩]
      [⟨1, 3, 5⟩, ⟨2, 5, 6⟩, ⟨4, 6, 5⟩] (by decide) (by decide) (by decide)
      (fun sel hs _ => le_trans (payoffSum_sublist_le (by decide) hs) (by decide))
      (by decide)⟩

end PayoffSched
